import Mathlib

/-!
Verification of the `lemon_shark` kernel's specified core (heap allocator,
bitmap, layout and filesystem) against its natural-language specification.

The Rust sources under `src/` are shallowly embedded: bytes and machine
integers become `Nat` (with explicit `% 2 ^ w` or bounds where overflow
matters), raw pointers and the intrusive free list become explicit lists,
the block device becomes a function from block index to block contents
together with a log of written block indices, and every Rust `panic!` /
`.unwrap()` failure is modelled by `Option` (`none` = panic).
-/

set_option maxHeartbeats 1000000

namespace Lemon

/-- Largest `u32` value, `u32::MAX`. -/
def U32MAX : Nat := 4294967295

/-- Complement of a `u32` word (`!w` in Rust); meaningful for `w ≤ U32MAX`. -/
def u32not (w : Nat) : Nat := U32MAX - w

/-- One division step of `u32::trailing_zeros`, with the fuel bounding the
word width (hardware `trailing_zeros` is bounded by 32; `ctzGo 32 0 = 32`
matches `u32::trailing_zeros(0)`). -/
def ctzGo : Nat → Nat → Nat
  | 0, _ => 0
  | fuel + 1, n => if n % 2 = 1 then 0 else ctzGo fuel (n / 2) + 1

/-- `u32::trailing_zeros`. -/
def ctz (n : Nat) : Nat := ctzGo 32 n

theorem ctzGo_succ (fuel n : Nat) (h0 : n ≠ 0) (h : n < 2 ^ fuel) :
    ctzGo fuel n = ctzGo (fuel + 1) n := by
  induction fuel generalizing n with
  | zero => interval_cases n; omega
  | succ fuel ih =>
    show ctzGo (fuel + 1) n = ctzGo (fuel + 1 + 1) n
    rcases Nat.mod_two_eq_zero_or_one n with he | ho
    · show (if n % 2 = 1 then 0 else ctzGo fuel (n / 2) + 1)
        = if n % 2 = 1 then 0 else ctzGo (fuel + 1) (n / 2) + 1
      rw [if_neg (by omega), if_neg (by omega)]
      rw [ih (n / 2) (by omega) (by rw [pow_succ] at h; omega)]
    · show (if n % 2 = 1 then 0 else _) = if n % 2 = 1 then 0 else _
      rw [if_pos ho, if_pos ho]

theorem ctzGo_stab (f f' n : Nat) (h0 : n ≠ 0) (h : n < 2 ^ f) (h' : n < 2 ^ f') :
    ctzGo f n = ctzGo f' n := by
  rcases Nat.le_total f f' with hle | hle
  · obtain ⟨k, rfl⟩ := Nat.exists_eq_add_of_le hle
    clear h'
    induction k with
    | zero => rfl
    | succ k ih =>
      rw [ih (by omega)]
      have hfk : n < 2 ^ (f + k) := lt_of_lt_of_le h (Nat.pow_le_pow_right (by omega) (by omega))
      rw [ctzGo_succ (f + k) n h0 hfk]
      rfl
  · obtain ⟨k, rfl⟩ := Nat.exists_eq_add_of_le hle
    clear h
    induction k with
    | zero => rfl
    | succ k ih =>
      rw [← ih (by omega)]
      have hfk : n < 2 ^ (f' + k) := lt_of_lt_of_le h' (Nat.pow_le_pow_right (by omega) (by omega))
      rw [ctzGo_succ (f' + k) n h0 hfk]
      rfl

theorem ctz_odd (n : Nat) (h : n % 2 = 1) : ctz n = 0 := by
  show ctzGo 32 n = 0
  show (if n % 2 = 1 then 0 else ctzGo 31 (n / 2) + 1) = 0
  rw [if_pos h]

theorem ctz_even (n : Nat) (h0 : n ≠ 0) (h : n % 2 = 0) (hb : n < 2 ^ 32) :
    ctz n = ctz (n / 2) + 1 := by
  show ctzGo 32 n = ctzGo 32 (n / 2) + 1
  show (if n % 2 = 1 then 0 else ctzGo 31 (n / 2) + 1) = ctzGo 32 (n / 2) + 1
  rw [if_neg (by omega)]
  rw [ctzGo_stab 31 32 (n / 2) (by omega) (by omega) (by omega)]

theorem ctzGo_pow_le (fuel : Nat) : ∀ n, n ≠ 0 → 2 ^ ctzGo fuel n ≤ n := by
  induction fuel with
  | zero => intro n h0; show 2 ^ 0 ≤ n; omega
  | succ fuel ih =>
    intro n h0
    show 2 ^ (if n % 2 = 1 then 0 else ctzGo fuel (n / 2) + 1) ≤ n
    rcases Nat.mod_two_eq_zero_or_one n with he | ho
    · rw [if_neg (by omega), pow_succ]
      have := ih (n / 2) (by omega)
      omega
    · rw [if_pos ho]; omega

theorem ctz_pow_le (n : Nat) (h : n ≠ 0) : 2 ^ ctz n ≤ n := ctzGo_pow_le 32 n h

/-! ## Bitmap (src/bitmap.rs)

A dense bit array over 32-bit words.  `arr` holds the words
(each `< 2 ^ 32` whenever the bitmap was built by the operations here);
`len` is the word count as stored by the Rust struct. -/

structure Bitmap where
  len : Nat
  arr : List Nat
deriving Repr, DecidableEq

/-- `Bitmap::new(bits)`: `len = bits / 32 + 1` zeroed words. -/
def Bitmap.new (bits : Nat) : Bitmap :=
  let len := bits / 32 + 1
  { len := len, arr := List.replicate len 0 }

/-- `Bitmap::set`: `arr[index / 32] |= 1 << (index % 32)`.  (Rust panics on an
out-of-range word index; `List.set` is a no-op there, so theorems about `set`
carry in-range hypotheses.) -/
def Bitmap.set (b : Bitmap) (index : Nat) : Bitmap :=
  let arr_index := index / 32
  let bit_index := index % 32
  { b with arr := b.arr.set arr_index (b.arr.getD arr_index 0 ||| 1 <<< bit_index) }

/-- `Bitmap::is_set`: `arr[index / 32] & (1 << (index % 32)) > 0`. -/
def Bitmap.is_set (b : Bitmap) (index : Nat) : Bool :=
  let arr_index := index / 32
  let bit_index := index % 32
  decide (0 < b.arr.getD arr_index 0 &&& 1 <<< bit_index)

/-- Word scan of `Bitmap::find_free`: first word `≠ u32::MAX` gives
`word_index * 32 + (!word).trailing_zeros()`. -/
def find_free_go : Nat → List Nat → Option Nat
  | _, [] => none
  | i, w :: ws =>
    if w ≠ U32MAX then some (i * 32 + ctz (u32not w)) else find_free_go (i + 1) ws

/-- `Bitmap::find_free`: lowest clear bit, scanning 32-bit words. -/
def Bitmap.find_free (b : Bitmap) : Option Nat := find_free_go 0 b.arr

/-- One word of `drain_set`: repeatedly yield `trailing_zeros` and clear that
bit (`n &= !(1 << t)` equals `n - (1 <<< t)` since bit `t` is set). -/
def drainWord (n : Nat) : List Nat :=
  if h : n = 0 then []
  else
    let t := ctz n
    t :: drainWord (n - 1 <<< t)
decreasing_by
  have h1 : 1 <<< ctz n = 2 ^ ctz n := Nat.one_shiftLeft _
  have := ctz_pow_le n h
  have : 0 < 2 ^ ctz n := Nat.pos_pow_of_pos _ (by omega)
  omega

/-- Word loop of the fully-consumed `drain_set` iterator: word `idx`
contributes its set bits at absolute indices `idx * 32 + t`. -/
def drain_go : Nat → List Nat → List Nat
  | _, [] => []
  | idx, w :: ws => (drainWord w).map (fun t => idx * 32 + t) ++ drain_go (idx + 1) ws

/-- `Bitmap::drain_set`, fully consumed: the yielded indices in order, and the
bitmap as it stands afterwards (every word drained to zero). -/
def Bitmap.drain_set (b : Bitmap) : List Nat × Bitmap :=
  (drain_go 0 b.arr, { b with arr := b.arr.map (fun _ => 0) })

/-- The `drain_set` iterator consumed only `k` steps (it is lazy and
resumable): the yields so far and the words as they stand, with the current
word partially drained and later words untouched. -/
def drain_steps : Nat → Nat → List Nat → List Nat × List Nat
  | _, _, [] => ([], [])
  | 0, _, ws => ([], ws)
  | k + 1, idx, w :: ws =>
    if h : w = 0 then
      let r := drain_steps (k + 1) (idx + 1) ws
      (r.1, w :: r.2)
    else
      let t := ctz w
      let r := drain_steps k idx ((w - 1 <<< t) :: ws)
      ((idx * 32 + t) :: r.1, r.2)
termination_by k _ ws => (k, ws.length)

theorem drainWord_zero : drainWord 0 = [] := by rw [drainWord]; simp

theorem drainWord_ne (n : Nat) (h : n ≠ 0) :
    drainWord n = ctz n :: drainWord (n - 1 <<< ctz n) := by
  rw [drainWord]; simp [h]

theorem drainWord_double (m : Nat) (hb : m < 2 ^ 31) :
    drainWord (2 * m) = (drainWord m).map (· + 1) := by
  induction m using Nat.strong_induction_on with
  | _ m ih =>
    rcases Nat.eq_zero_or_pos m with h0 | h0
    · simp [h0, drainWord_zero]
    have h2 : (2 * m) % 2 = 0 := by omega
    have hc : ctz (2 * m) = ctz m + 1 := by
      rw [ctz_even (2 * m) (by omega) h2 (by omega), (by omega : 2 * m / 2 = m)]
    have hle : 2 ^ ctz m ≤ m := ctz_pow_le m (by omega)
    have hpos : 0 < 2 ^ ctz m := Nat.pos_pow_of_pos _ (by omega)
    have hsh : 1 <<< ctz m = 2 ^ ctz m := Nat.one_shiftLeft _
    have hsub : 2 * m - 1 <<< (ctz m + 1) = 2 * (m - 1 <<< ctz m) := by
      rw [Nat.one_shiftLeft, hsh, pow_succ]
      omega
    rw [drainWord_ne (2 * m) (by omega), hc, hsub,
      ih (m - 1 <<< ctz m) (by omega) (by omega),
      drainWord_ne m (by omega)]
    simp

theorem drainWord_odd (m : Nat) (hb : m < 2 ^ 31) :
    drainWord (2 * m + 1) = 0 :: (drainWord m).map (· + 1) := by
  have h1 : ctz (2 * m + 1) = 0 := ctz_odd _ (by omega)
  rw [drainWord_ne (2 * m + 1) (by omega), h1]
  simp [Nat.one_shiftLeft, drainWord_double m hb]

/-- `drainWord` yields exactly the set bits of the word, in ascending order. -/
theorem drainWord_eq_filter (k : Nat) :
    ∀ n, k ≤ 32 → n < 2 ^ k → drainWord n = (List.range k).filter (fun i => n.testBit i) := by
  induction k with
  | zero =>
    intro n _ hn
    interval_cases n
    simp [drainWord_zero]
  | succ k ih =>
    intro n hk hn
    have hdiv : n / 2 < 2 ^ k := by
      rw [pow_succ] at hn
      omega
    have hdiv31 : n / 2 < 2 ^ 31 := by
      have : (2:Nat) ^ k ≤ 2 ^ 31 := Nat.pow_le_pow_right (by omega) (by omega)
      omega
    have hrange : List.range (k + 1) = 0 :: (List.range k).map Nat.succ :=
      List.range_succ_eq_map k
    have hmapfilter :
        ((List.range k).map Nat.succ).filter (fun i => n.testBit i)
          = ((List.range k).filter (fun i => (n / 2).testBit i)).map Nat.succ := by
      rw [List.filter_map]
      congr 1
      apply List.filter_congr
      intro i _
      simp [Function.comp, Nat.testBit_add_one]
    rcases Nat.mod_two_eq_zero_or_one n with he | ho
    · have hb : n.testBit 0 = false := by simp [he]
      calc drainWord n
          = drainWord (2 * (n / 2)) := by conv_lhs => rw [show n = 2 * (n / 2) by omega]
        _ = (drainWord (n / 2)).map (· + 1) := drainWord_double _ hdiv31
        _ = ((List.range k).filter (fun i => (n / 2).testBit i)).map Nat.succ := by
            rw [ih (n / 2) (by omega) hdiv]
        _ = (List.range (k + 1)).filter (fun i => n.testBit i) := by
            rw [hrange, List.filter_cons, hb, hmapfilter]
            simp
    · have hb : n.testBit 0 = true := by simp [ho]
      calc drainWord n
          = drainWord (2 * (n / 2) + 1) := by
            conv_lhs => rw [show n = 2 * (n / 2) + 1 by omega]
        _ = 0 :: (drainWord (n / 2)).map (· + 1) := drainWord_odd _ hdiv31
        _ = 0 :: ((List.range k).filter (fun i => (n / 2).testBit i)).map Nat.succ := by
            rw [ih (n / 2) (by omega) hdiv]
        _ = (List.range (k + 1)).filter (fun i => n.testBit i) := by
            rw [hrange, List.filter_cons, hb, hmapfilter]
            simp

/-- `Bitmap.is_set` is the `testBit` of the containing word. -/
theorem is_set_eq_testBit (b : Bitmap) (i : Nat) :
    b.is_set i = (b.arr.getD (i / 32) 0).testBit (i % 32) := by
  dsimp only [Bitmap.is_set]
  rw [Nat.one_shiftLeft, Nat.and_two_pow]
  cases h : (b.arr.getD (i / 32) 0).testBit (i % 32) <;>
    simp [h, Nat.pos_pow_of_pos]

/-- Full drain over a word list yields exactly the set bits (relative to the
word offset `idx`), in ascending order. -/
theorem drain_go_eq_filter (ws : List Nat) :
    ∀ idx, (∀ w ∈ ws, w < 2 ^ 32) →
      drain_go idx ws
        = ((List.range (32 * ws.length)).filter
            (fun i => (ws.getD (i / 32) 0).testBit (i % 32))).map (fun i => idx * 32 + i) := by
  induction ws with
  | nil => intro idx _; simp [drain_go]
  | cons w ws ih =>
    intro idx hw
    have hw0 : w < 2 ^ 32 := hw w (by simp)
    have hlen : 32 * (w :: ws).length = 32 + 32 * ws.length := by
      simp [List.length_cons]
      ring
    rw [drain_go, hlen, List.range_add, List.filter_append, List.map_append]
    congr 1
    · have h1 : (List.range 32).filter
          (fun i => ((w :: ws).getD (i / 32) 0).testBit (i % 32))
            = (List.range 32).filter (fun i => w.testBit i) := by
        apply List.filter_congr
        intro i hi
        rw [List.mem_range] at hi
        rw [(by omega : i / 32 = 0), (by omega : i % 32 = i)]
        rfl
      rw [h1, ← drainWord_eq_filter 32 w (by omega) hw0]
    · have h2 : ((List.range (32 * ws.length)).map (32 + ·)).filter
          (fun i => ((w :: ws).getD (i / 32) 0).testBit (i % 32))
            = ((List.range (32 * ws.length)).filter
                (fun i => (ws.getD (i / 32) 0).testBit (i % 32))).map (32 + ·) := by
        rw [List.filter_map]
        congr 1
        apply List.filter_congr
        intro i _
        have hdiv : (32 + i) / 32 = i / 32 + 1 := by omega
        have hmod : (32 + i) % 32 = i % 32 := by omega
        simp only [Function.comp]
        rw [hdiv, hmod]
        rfl
      rw [h2, ih (idx + 1) (fun x hx => hw x (by simp [hx])), List.map_map]
      congr 1
      funext i
      simp only [Function.comp]
      omega

/-- Consuming `k` elements of the drain iterator yields the first `k` elements
of the full drain. -/
theorem drain_steps_fst (k idx : Nat) (ws : List Nat) :
    (drain_steps k idx ws).1 = (drain_go idx ws).take k := by
  induction k, idx, ws using drain_steps.induct with
  | case1 _ _ => simp [drain_steps, drain_go]
  | case2 _ ws _ => simp [drain_steps]
  | case3 k idx ws ih =>
    rw [drain_steps]
    rw [drain_go, drainWord_zero]
    simpa using ih
  | case4 k idx w ws h t ih =>
    rw [drain_steps]
    simp only [dif_neg h]
    have hgo : drain_go idx (w :: ws)
        = (idx * 32 + ctz w) :: drain_go idx ((w - 1 <<< ctz w) :: ws) := by
      rw [drain_go, drainWord_ne w h, drain_go]
      simp
    rw [hgo]
    simpa using ih

theorem drain_go_cons_zero (m : Nat) (X : List Nat) :
    drain_go m (0 :: X) = drain_go (m + 1) X := by
  rw [drain_go, drainWord_zero]
  simp

/-- Resumability: draining the leftover words yields exactly the not-yet
consumed elements of the full drain; in particular bits not yet reached are
still intact, and each yielded bit was cleared. -/
theorem drain_steps_snd (k idx : Nat) (ws : List Nat) :
    drain_go idx (drain_steps k idx ws).2 = (drain_go idx ws).drop k := by
  induction k, idx, ws using drain_steps.induct with
  | case1 _ _ => simp [drain_steps, drain_go]
  | case2 _ ws _ => simp [drain_steps]
  | case3 k idx ws ih =>
    rw [drain_steps]
    simpa [drain_go_cons_zero] using ih
  | case4 k idx w ws h t ih =>
    rw [drain_steps]
    simp only [dif_neg h]
    have hgo : drain_go idx (w :: ws)
        = (idx * 32 + ctz w) :: drain_go idx ((w - 1 <<< ctz w) :: ws) := by
      rw [drain_go, drainWord_ne w h, drain_go]
      simp
    rw [hgo]
    simpa using ih

theorem getD_map_zero (ws : List Nat) (j : Nat) :
    (ws.map (fun _ => 0)).getD j 0 = 0 := by
  induction ws generalizing j with
  | nil => simp
  | cons w ws ih =>
    match j with
    | 0 => simp
    | j + 1 => simpa using ih j

/-- C8: fully consuming `drain_set` yields exactly the set bit indices in
strictly ascending order; afterwards every bit is zero; and the iterator is
lazy/resumable: consuming only `k` elements yields the first `k` of that
enumeration, and draining the leftover words yields exactly the rest (so a
bit is cleared precisely when it is yielded, and bits not yet reached are
still intact).  The hypothesis states that the stored words are `u32`s. -/
theorem C8_drain_set_spec (b : Bitmap) (hw : ∀ w ∈ b.arr, w < 2 ^ 32) :
    b.drain_set.1 = (List.range (32 * b.arr.length)).filter (fun i => b.is_set i)
    ∧ b.drain_set.1.Pairwise (· < ·)
    ∧ (∀ i, b.drain_set.2.is_set i = false)
    ∧ (∀ k, (drain_steps k 0 b.arr).1 = b.drain_set.1.take k
        ∧ drain_go 0 (drain_steps k 0 b.arr).2 = b.drain_set.1.drop k) := by
  have hpred : (fun i => b.is_set i) = fun i => (b.arr.getD (i / 32) 0).testBit (i % 32) :=
    funext (is_set_eq_testBit b)
  have h1 : b.drain_set.1
      = (List.range (32 * b.arr.length)).filter (fun i => b.is_set i) := by
    show drain_go 0 b.arr = _
    rw [drain_go_eq_filter b.arr 0 hw, hpred]
    simp
  refine ⟨h1, ?_, ?_, ?_⟩
  · rw [h1]
    exact (List.pairwise_lt_range _).filter _
  · intro i
    show Bitmap.is_set _ i = false
    rw [is_set_eq_testBit]
    show ((b.arr.map (fun _ => 0)).getD (i / 32) 0).testBit (i % 32) = false
    rw [getD_map_zero]
    exact Nat.zero_testBit _
  · intro k
    exact ⟨drain_steps_fst k 0 b.arr, drain_steps_snd k 0 b.arr⟩

/-- Witness for C8 at a concrete bitmap with words `[81, 5]`
(set bits `0, 4, 6, 32, 34`). -/
theorem C8_drain_set_spec_witness :
    (∀ w ∈ ([81, 5] : List Nat), w < 2 ^ 32)
    ∧ (Bitmap.mk 2 [81, 5]).drain_set.1
        = (List.range (32 * 2)).filter (fun i => (Bitmap.mk 2 [81, 5]).is_set i) :=
  ⟨by decide, (C8_drain_set_spec (Bitmap.mk 2 [81, 5]) (by decide)).1⟩

/-! ## Layout (src/filesystem.rs, mod layout)

Constants of the filesystem and the pure layout computation. `INODE_SIZE` is
`mem::size_of::<INode>()` = 4 (size) + 64 (sixteen u32 block slots) + 1
(is_directory) + 3 (padding) = 72 bytes for the `repr(C)` struct. -/

def BLOCK_SIZE : Nat := 512

def MAX_INODES : Nat := 4096

def INODE_SIZE : Nat := 72

def INODES_PER_BLOCK : Nat := BLOCK_SIZE / INODE_SIZE

def DIR_ENTRY_SIZE : Nat := 28

def DIR_ENTRY_PER_BLOCK : Nat := BLOCK_SIZE / DIR_ENTRY_SIZE

def MAGIC : Nat := 0x4e4f4d454c

/-- Rust `usize::div_ceil`. -/
def divCeil (a b : Nat) : Nat := (a + b - 1) / b

def SUPERBLOCK_BLOCKS : Nat := 1

def BITS_PER_BLOCK : Nat := BLOCK_SIZE * 8

def INODE_BITMAP_BLOCKS : Nat := divCeil MAX_INODES BITS_PER_BLOCK

def INODE_BLOCKS : Nat := divCeil MAX_INODES INODES_PER_BLOCK

/-- `fixed` in `Layout::new`: superblock + inode bitmap + inode table. -/
def layoutFixed : Nat := SUPERBLOCK_BLOCKS + INODE_BITMAP_BLOCKS + INODE_BLOCKS

structure Layout where
  inode_bitmap_start : Nat
  inode_bitmap_blocks : Nat
  data_bitmap_start : Nat
  data_bitmap_blocks : Nat
  inode_table_start : Nat
  inode_table_blocks : Nat
  data_start : Nat
  data_blocks : Nat
deriving Repr, DecidableEq

/-- The fixed-point `loop` of `Layout::new`, with explicit fuel since the
Rust loop has no bound.  Returns `(data_bitmap_blocks, data_start,
data_blocks)` at the `break`. -/
def layoutLoop (total_blocks : Nat) : Nat → Nat → Option (Nat × Nat × Nat)
  | 0, _ => none
  | fuel + 1, data_bitmap_blocks =>
    let data_start := layoutFixed + data_bitmap_blocks
    let data_blocks := total_blocks - data_start
    let next := divCeil data_blocks BITS_PER_BLOCK
    if next = data_bitmap_blocks then some (data_bitmap_blocks, data_start, data_blocks)
    else layoutLoop total_blocks fuel next

/-- `Layout::new(total_blocks)` (with fuel for its unbounded loop). -/
def Layout.new (total_blocks : Nat) (fuel : Nat) : Option Layout :=
  let start := divCeil (total_blocks - layoutFixed) BITS_PER_BLOCK
  (layoutLoop total_blocks fuel start).map (fun r =>
    { inode_bitmap_start := 1
      inode_bitmap_blocks := INODE_BITMAP_BLOCKS
      data_bitmap_start := 1 + INODE_BITMAP_BLOCKS
      data_bitmap_blocks := r.1
      inode_table_start := 1 + INODE_BITMAP_BLOCKS + r.1
      inode_table_blocks := INODE_BLOCKS
      data_start := r.2.1
      data_blocks := r.2.2 })

/-- `Layout::inode_to_block`: physical block index and byte offset of an
inode slot. -/
def Layout.inode_to_block (l : Layout) (inode : Nat) : Nat × Nat :=
  (l.inode_table_start + inode / INODES_PER_BLOCK,
   (inode % INODES_PER_BLOCK) * INODE_SIZE)

/-- `Layout::data_block`: `DataBlockIndex::new(data_start, val)`, i.e.
`NonZeroU32::new(data_start + val)` (`none` encodes the zero sentinel). -/
def Layout.data_block (l : Layout) (val : Nat) : Option Nat :=
  let v := l.data_start + val
  if v = 0 then none else some v

/-- `Layout::data_to_block`: `data.value().unwrap()`.  Rust panics on the
`none` sentinel; every call site has just filtered / assigned a non-`none`
slot, so the default is never read on those paths. -/
def Layout.data_to_block (_l : Layout) (d : Option Nat) : Nat := d.getD 0

/-- If the data-bitmap estimate is caught in a 2-cycle of the iteration, the
loop never breaks, for any amount of fuel. -/
theorem layoutLoop_cycle (total_blocks : Nat) :
    ∀ fuel d,
      divCeil (total_blocks - (layoutFixed + d)) BITS_PER_BLOCK ≠ d →
      divCeil (total_blocks
          - (layoutFixed + divCeil (total_blocks - (layoutFixed + d)) BITS_PER_BLOCK))
        BITS_PER_BLOCK = d →
      layoutLoop total_blocks fuel d = none := by
  intro fuel
  induction fuel with
  | zero => intro d _ _; rfl
  | succ fuel ih =>
    intro d h1 h2
    show layoutLoop total_blocks (fuel + 1) d = none
    rw [layoutLoop]
    simp only [if_neg h1]
    apply ih
    · rw [h2]
      intro hc
      exact h1 hc.symm
    · rw [h2]

/-- C7 counterexample: for `total_blocks = 4686` (room for the fixed regions,
a data bitmap and 4096 data blocks) the estimate oscillates between 2 and 1
forever, so `Layout::new` does not terminate. -/
theorem C7_counterexample : ¬ ∃ fuel, (Layout.new 4686 fuel).isSome := by
  rintro ⟨fuel, hf⟩
  have hstart : divCeil (4686 - layoutFixed) BITS_PER_BLOCK = 2 := by decide
  have hcyc : layoutLoop 4686 fuel 2 = none := by
    apply layoutLoop_cycle
    · decide
    · decide
  have h2 : Layout.new 4686 fuel = none := by
    unfold Layout.new
    dsimp only
    rw [hstart, hcyc]
    rfl
  rw [h2] at hf
  simp at hf

/-- The iterate of the data-bitmap estimate stays below `total_blocks - 588`. -/
theorem layout_f_bound (tb d : Nat) (h : 589 ≤ tb) :
    divCeil (tb - (layoutFixed + d)) BITS_PER_BLOCK ≤ tb - 588 := by
  simp only [layoutFixed, SUPERBLOCK_BLOCKS, INODE_BITMAP_BLOCKS, INODE_BLOCKS,
    BITS_PER_BLOCK, BLOCK_SIZE, MAX_INODES, INODES_PER_BLOCK, INODE_SIZE, divCeil]
  omega

/-- Strict decrease of the distance to the next iterate, away from the
excluded residue `(tb - 588) % 4097 = 1` (where a 2-cycle lives). -/
theorem layout_f_step (tb d : Nat) (h : 589 ≤ tb)
    (hmod : (tb - 588) % 4097 ≠ 1) (hd : d ≤ tb - 588)
    (hne : divCeil (tb - (layoutFixed + d)) BITS_PER_BLOCK ≠ d) :
    Nat.dist (divCeil (tb - (layoutFixed + d)) BITS_PER_BLOCK)
        (divCeil (tb
            - (layoutFixed + divCeil (tb - (layoutFixed + d)) BITS_PER_BLOCK))
          BITS_PER_BLOCK)
      < Nat.dist d (divCeil (tb - (layoutFixed + d)) BITS_PER_BLOCK) := by
  simp only [layoutFixed, SUPERBLOCK_BLOCKS, INODE_BITMAP_BLOCKS, INODE_BLOCKS,
    BITS_PER_BLOCK, BLOCK_SIZE, MAX_INODES, INODES_PER_BLOCK, INODE_SIZE, divCeil,
    Nat.dist] at *
  omega

/-- With enough fuel the loop reaches a fixed point, provided the distance to
the next iterate is bounded by the fuel. -/
theorem layoutLoop_term (tb : Nat) (h : 589 ≤ tb) (hmod : (tb - 588) % 4097 ≠ 1) :
    ∀ cap d, d ≤ tb - 588 →
      Nat.dist d (divCeil (tb - (layoutFixed + d)) BITS_PER_BLOCK) ≤ cap →
      ∃ r, layoutLoop tb (cap + 1) d
            = some (r, layoutFixed + r, tb - (layoutFixed + r))
        ∧ divCeil (tb - (layoutFixed + r)) BITS_PER_BLOCK = r
        ∧ r ≤ tb - 588 := by
  intro cap
  induction cap with
  | zero =>
    intro d hd hdist
    have hfix : divCeil (tb - (layoutFixed + d)) BITS_PER_BLOCK = d := by
      simp only [Nat.dist] at hdist
      omega
    refine ⟨d, ?_, hfix, hd⟩
    rw [layoutLoop]
    simp [hfix]
  | succ cap ih =>
    intro d hd hdist
    by_cases hfix : divCeil (tb - (layoutFixed + d)) BITS_PER_BLOCK = d
    · refine ⟨d, ?_, hfix, hd⟩
      rw [layoutLoop]
      simp [hfix]
    · have hstep := layout_f_step tb d h hmod hd hfix
      have hbound := layout_f_bound tb d h
      obtain ⟨r, hr, hrfix, hrle⟩ :=
        ih (divCeil (tb - (layoutFixed + d)) BITS_PER_BLOCK) hbound (by omega)
      refine ⟨r, ?_, hrfix, hrle⟩
      rw [layoutLoop]
      simp only [if_neg hfix]
      exact hr

/-- C7 (amended): for every `total_blocks ≥ 589` outside the residue class
`(total_blocks - 588) % 4097 = 1` the fixed-point loop of `Layout::new`
terminates, and the returned layout exactly partitions the device:
`1 + inode_bitmap_blocks + data_bitmap_blocks + inode_table_blocks +
data_blocks = total_blocks` and `data_bitmap_blocks =
ceil(data_blocks / (BLOCK_SIZE * 8))`. -/
theorem C7_layout_partition (tb : Nat) (h : 589 ≤ tb)
    (hmod : (tb - 588) % 4097 ≠ 1) :
    ∃ fuel L, Layout.new tb fuel = some L
      ∧ 1 + L.inode_bitmap_blocks + L.data_bitmap_blocks + L.inode_table_blocks
          + L.data_blocks = tb
      ∧ L.data_bitmap_blocks = divCeil L.data_blocks BITS_PER_BLOCK := by
  have hstart : divCeil (tb - layoutFixed) BITS_PER_BLOCK ≤ tb - 588 := by
    have hfix : layoutFixed = 588 := by decide
    have hbpb : BITS_PER_BLOCK = 4096 := by decide
    rw [hfix, hbpb]
    simp only [divCeil]
    omega
  set d0 := divCeil (tb - layoutFixed) BITS_PER_BLOCK with hd0
  obtain ⟨r, hr, hrfix, hrle⟩ :=
    layoutLoop_term tb h hmod
      (Nat.dist d0 (divCeil (tb - (layoutFixed + d0)) BITS_PER_BLOCK)) d0 hstart le_rfl
  have hnew : Layout.new tb
        (Nat.dist d0 (divCeil (tb - (layoutFixed + d0)) BITS_PER_BLOCK) + 1)
      = some { inode_bitmap_start := 1
               inode_bitmap_blocks := INODE_BITMAP_BLOCKS
               data_bitmap_start := 1 + INODE_BITMAP_BLOCKS
               data_bitmap_blocks := r
               inode_table_start := 1 + INODE_BITMAP_BLOCKS + r
               inode_table_blocks := INODE_BLOCKS
               data_start := layoutFixed + r
               data_blocks := tb - (layoutFixed + r) } := by
    unfold Layout.new
    dsimp only
    rw [← hd0, hr]
    rfl
  refine ⟨_, _, hnew, ?_, hrfix.symm⟩
  have h1 : INODE_BITMAP_BLOCKS = 1 := by decide
  have h2 : INODE_BLOCKS = 586 := by decide
  have h3 : layoutFixed = 588 := by decide
  simp only [h1, h2, h3]
  omega

/-- Witness for C7 at `total_blocks = 2048` (the repository's RAM disk size,
1 MiB / 512): the hypotheses hold and the layout partitions the device. -/
theorem C7_layout_partition_witness :
    589 ≤ 2048 ∧ (2048 - 588) % 4097 ≠ 1
    ∧ ∃ fuel L, Layout.new 2048 fuel = some L
        ∧ 1 + L.inode_bitmap_blocks + L.data_bitmap_blocks + L.inode_table_blocks
            + L.data_blocks = 2048
        ∧ L.data_bitmap_blocks = divCeil L.data_blocks BITS_PER_BLOCK :=
  ⟨by omega, by decide, C7_layout_partition 2048 (by omega) (by decide)⟩

/-! ## Bytes, buffers and the block device

Bytes are `Nat`s (< 256 in every state built here).  A block buffer is a
function from byte offset to byte; `bufWrite` models
`buf[off..off+n].copy_from_slice(..)` and `bufBytes` models reading a byte
range.  The device (ramdisk or virtio, opaque to the filesystem) is a
function from block index to block contents plus a log of the block indices
ever passed to `write_block` (the observable write traffic). -/

def bufWrite (buf : Nat → Nat) (off : Nat) (data : List Nat) : Nat → Nat :=
  fun i => if off ≤ i ∧ i < off + data.length then data.getD (i - off) 0 else buf i

def bufBytes (buf : Nat → Nat) (off len : Nat) : List Nat :=
  (List.range len).map (fun i => buf (off + i))

structure Disk where
  total_blocks : Nat
  fn : Nat → Nat → Nat
  log : List Nat

def Disk.read_block (d : Disk) (idx : Nat) : Nat → Nat := d.fn idx

def Disk.write_block (d : Disk) (idx : Nat) (data : Nat → Nat) : Disk :=
  { d with fn := fun j => if j = idx then data else d.fn j, log := d.log ++ [idx] }

/-- An all-zero disk (a fresh RAM disk; `ramdisk.rs` has 2048 blocks). -/
def zeroDisk (tb : Nat) : Disk := ⟨tb, fun _ _ => 0, []⟩

/-- Little-endian `u32::to_le_bytes` (of the value reduced mod `2 ^ 32`). -/
def u32le (n : Nat) : List Nat :=
  [n % 256, n / 256 % 256, n / 65536 % 256, n / 16777216 % 256]

/-- `u32::from_le_bytes` at `off` in a buffer. -/
def readU32 (buf : Nat → Nat) (off : Nat) : Nat :=
  buf off + 256 * buf (off + 1) + 65536 * buf (off + 2) + 16777216 * buf (off + 3)

/-- `u64::from_le_bytes` at `off` in a buffer. -/
def readU64 (buf : Nat → Nat) (off : Nat) : Nat :=
  readU32 buf off + 4294967296 * readU32 buf (off + 4)

/-- `u64::to_le_bytes` (of the value reduced mod `2 ^ 64`). -/
def u64le (n : Nat) : List Nat := u32le (n % 4294967296) ++ u32le (n / 4294967296 % 4294967296)

/-! ## Bitmap serialization (src/bitmap.rs) -/

/-- Little-endian `u32` words from a byte list (`chunks(4)`; the sources only
apply it to multiples of four bytes — a short trailing chunk would make the
Rust `try_into().unwrap()` panic). -/
def bytesToWords : List Nat → List Nat
  | b0 :: b1 :: b2 :: b3 :: rest =>
    (b0 + 256 * b1 + 65536 * b2 + 16777216 * b3) :: bytesToWords rest
  | _ => []

/-- `Bitmap::from_bytes`: 4-byte word-count prefix, then the words
(`chunks(4).skip(1)`, i.e. every remaining 4-byte group). -/
def Bitmap.from_bytes (bytes : List Nat) : Bitmap :=
  let len := (bytes.getD 0 0) + 256 * bytes.getD 1 0 + 65536 * bytes.getD 2 0
    + 16777216 * bytes.getD 3 0
  { len := len, arr := bytesToWords (bytes.drop 4) }

/-- `Bitmap::to_bytes`: the length prefix followed by `len` words little
endian (`from_raw_parts(arr.as_ptr(), len * 4)`). -/
def Bitmap.to_bytes (b : Bitmap) : List Nat :=
  u32le b.len ++ ((b.arr.take b.len).map u32le).flatten

/-! ## UTF-8 validation

`read_file` decodes every block through `str::from_utf8(..).unwrap()`; this
models Rust's UTF-8 validation (RFC 3629 shortest-form ranges, surrogates
excluded). -/

def isCont (b : Nat) : Bool := decide (0x80 ≤ b ∧ b ≤ 0xBF)

def validUtf8 : List Nat → Bool
  | [] => true
  | b :: rest =>
    if b ≤ 0x7F then validUtf8 rest
    else if 0xC2 ≤ b ∧ b ≤ 0xDF then
      match rest with
      | c1 :: rest' => isCont c1 && validUtf8 rest'
      | [] => false
    else if b = 0xE0 then
      match rest with
      | c1 :: c2 :: rest' =>
        decide (0xA0 ≤ c1 ∧ c1 ≤ 0xBF) && isCont c2 && validUtf8 rest'
      | _ => false
    else if (0xE1 ≤ b ∧ b ≤ 0xEC) ∨ b = 0xEE ∨ b = 0xEF then
      match rest with
      | c1 :: c2 :: rest' => isCont c1 && isCont c2 && validUtf8 rest'
      | _ => false
    else if b = 0xED then
      match rest with
      | c1 :: c2 :: rest' =>
        decide (0x80 ≤ c1 ∧ c1 ≤ 0x9F) && isCont c2 && validUtf8 rest'
      | _ => false
    else if b = 0xF0 then
      match rest with
      | c1 :: c2 :: c3 :: rest' =>
        decide (0x90 ≤ c1 ∧ c1 ≤ 0xBF) && isCont c2 && isCont c3 && validUtf8 rest'
      | _ => false
    else if 0xF1 ≤ b ∧ b ≤ 0xF3 then
      match rest with
      | c1 :: c2 :: c3 :: rest' => isCont c1 && isCont c2 && isCont c3 && validUtf8 rest'
      | _ => false
    else if b = 0xF4 then
      match rest with
      | c1 :: c2 :: c3 :: rest' =>
        decide (0x80 ≤ c1 ∧ c1 ≤ 0x8F) && isCont c2 && isCont c3 && validUtf8 rest'
      | _ => false
    else false

/-! ## INode, DirEntry, SuperBlock (src/filesystem.rs) -/

/-- `DataBlockIndex` is `Option<NonZeroU32>`: `none` is the zero sentinel
("unassigned"). -/
abbrev DataBlockIndex := Option Nat

/-- `DataBlockIndex::from_raw_unchecked` = `NonZeroU32::new`. -/
def dbiFromRaw (v : Nat) : DataBlockIndex := if v = 0 then none else some v

structure INode where
  size : Nat
  blocks : List DataBlockIndex
  is_directory : Bool
deriving Repr, DecidableEq

def INode.empty_directory : INode :=
  { size := 0, is_directory := true, blocks := List.replicate 16 none }

def INode.empty_file : INode :=
  { size := 0, is_directory := false, blocks := List.replicate 16 none }

/-- `INode::from_bytes` of a 72-byte slice (given as a byte function). -/
def INode.from_bytes (bytes : Nat → Nat) : INode :=
  { size := readU32 bytes 0
    blocks := (List.range 16).map (fun idx => dbiFromRaw (readU32 bytes (4 + 4 * idx)))
    is_directory := bytes 68 ≠ 0 }

/-- `INode::to_bytes`: size, sixteen block slots (`value().unwrap_or_default()`),
flag byte, 3 padding zeros — 72 bytes. -/
def INode.to_bytes (inode : INode) : List Nat :=
  u32le inode.size ++ (inode.blocks.map (fun b => u32le (b.getD 0))).flatten
    ++ [if inode.is_directory then 1 else 0, 0, 0, 0]

structure DirEntry where
  name : List Nat
  inode : Nat
deriving Repr, DecidableEq

/-- `DirEntry::new`: the first `min(len, 24)` bytes of the name, NUL-padded
to 24. -/
def DirEntry.new (name_string : List Nat) (inode : Nat) : DirEntry :=
  let len := min name_string.length 24
  { name := name_string.take len ++ List.replicate (24 - len) 0, inode := inode }

def DirEntry.from_bytes (bytes : Nat → Nat) : DirEntry :=
  { name := bufBytes bytes 0 24, inode := readU32 bytes 24 }

def DirEntry.to_bytes (e : DirEntry) : List Nat := e.name ++ u32le e.inode

structure SuperBlock where
  magic : Nat
  block_size : Nat
  total_blocks : Nat
deriving Repr, DecidableEq

def SuperBlock.from_bytes (bytes : Nat → Nat) : SuperBlock :=
  { magic := readU64 bytes 0, block_size := readU32 bytes 8, total_blocks := readU32 bytes 12 }

def SuperBlock.to_bytes (sb : SuperBlock) : List Nat :=
  u64le sb.magic ++ u32le sb.block_size ++ u32le sb.total_blocks

def SuperBlock.default_superblock (device_total_blocks : Nat) : SuperBlock :=
  { magic := MAGIC, block_size := BLOCK_SIZE, total_blocks := device_total_blocks }

inductive Entry where
  | File
  | Directory
deriving Repr, DecidableEq

inductive Error where
  | DuplicatedEntry
  | DirectoryDoesNotExist
  | NoSpaceForDirEntry
  | NotAFile
  | NoSpaceInFile
  | NotADirectory
deriving Repr, DecidableEq

instance {α β : Type} [DecidableEq α] [DecidableEq β] : DecidableEq (Except α β) := fun x y =>
  match x, y with
  | Except.ok a, Except.ok b =>
    if h : a = b then isTrue (by rw [h]) else isFalse (by simp [h])
  | Except.error a, Except.error b =>
    if h : a = b then isTrue (by rw [h]) else isFalse (by simp [h])
  | Except.ok _, Except.error _ => isFalse (by simp)
  | Except.error _, Except.ok _ => isFalse (by simp)

/-! ## INodeCache (src/filesystem.rs) -/

structure INodeCache where
  inodes : List (Option INode)
  dirty : Bitmap
  layout : Option Layout
deriving Repr, DecidableEq

/-- `INodeCache::new`: dirty bitmap sized `inode_bitmap_blocks * BLOCK_SIZE`
(n.b. that is a byte count used as a bit count). -/
def INodeCache.new (layout : Layout) : INodeCache :=
  let size := layout.inode_bitmap_blocks * BLOCK_SIZE
  { inodes := [], layout := some layout, dirty := Bitmap.new size }

/-- The layout stored in the cache; `self.layout.as_ref().unwrap()` — every
cache in this development is built by `INodeCache.new`, so the `none` default
is unreachable. -/
def INodeCache.layoutD (c : INodeCache) : Layout :=
  c.layout.getD ⟨0, 0, 0, 0, 0, 0, 0, 0⟩

/-- `INodeCache::read_from_disk`. -/
def INodeCache.read_from_disk (c : INodeCache) (index : Nat) (device : Disk) : INode :=
  let lay := c.layoutD
  let p := lay.inode_to_block index
  INode.from_bytes (fun i => device.read_block p.1 (p.2 + i))

/-- `resize_with(index + 1, Default::default)` when the vec is short. -/
def INodeCache.reserve (c : INodeCache) (index : Nat) : INodeCache :=
  if c.inodes.length ≤ index then
    { c with inodes := c.inodes ++ List.replicate (index + 1 - c.inodes.length) none }
  else c

/-- `INodeCache::get`: read-through; fills the slot from disk when absent. -/
def INodeCache.get (c : INodeCache) (index : Nat) (device : Disk) : INode × INodeCache :=
  let c1 := c.reserve index
  let c2 :=
    match c1.inodes.getD index none with
    | some _ => c1
    | none => { c1 with inodes := c1.inodes.set index (some (c1.read_from_disk index device)) }
  ((c2.inodes.getD index none).getD INode.empty_file, c2)

/-- `INodeCache::get_mut`: as `get`, and marks the slot dirty. -/
def INodeCache.get_mut (c : INodeCache) (index : Nat) (device : Disk) : INode × INodeCache :=
  let r := c.get index device
  (r.1, { r.2 with dirty := r.2.dirty.set index })

/-- Writing back through the `&mut INode` that `get_mut` returned: the
mutated inode replaces the cached slot. -/
def INodeCache.put (c : INodeCache) (index : Nat) (inode : INode) : INodeCache :=
  { c with inodes := c.inodes.set index (some inode) }

def INodeCache.register_new_inode (c : INodeCache) (index : Nat) (inode : INode) : INodeCache :=
  let c1 := c.reserve index
  { c1 with inodes := c1.inodes.set index (some inode) }

/-- `self.inodes[idx].unwrap()` for each drained dirty index (`none` =
panic on a dirty slot that was never cached). -/
def drain_map (inodes : List (Option INode)) : List Nat → Option (List (Nat × INode))
  | [] => some []
  | idx :: rest =>
    match inodes.getD idx none with
    | none => none
    | some ino => (drain_map inodes rest).map (fun l => (idx, ino) :: l)

/-- `INodeCache::drain`: dirty indices with their inodes, clearing the dirty
bits (the iterator is consumed whole by `flush`). -/
def INodeCache.drain (c : INodeCache) : Option (List (Nat × INode)) × INodeCache :=
  let r := c.dirty.drain_set
  (drain_map c.inodes r.1, { c with dirty := r.2 })

/-! ## Filesystem (src/filesystem.rs) -/

structure Filesystem where
  block_device : Disk
  inode_bitmap : Bitmap
  data_bitmap : Bitmap
  inode_cache : INodeCache
  layout : Layout

/-- `Filesystem::read_superblock`: all-zero magic means format; the known
magic means mount; anything else panics ("Disk has wrong format"). -/
def read_superblock (device : Disk) : Option (SuperBlock × Bool) :=
  let buf := device.read_block 0
  let sb := SuperBlock.from_bytes buf
  if sb.magic = 0 then some (SuperBlock.default_superblock device.total_blocks, false)
  else if sb.magic = MAGIC then some (sb, true)
  else none

/-- Read `count` whole blocks starting at `start` as one byte list. -/
def readBlocksBytes (device : Disk) (start count : Nat) : List Nat :=
  (List.range count).map (fun i => bufBytes (device.read_block (start + i)) 0 BLOCK_SIZE)
    |>.flatten

/-- `Filesystem::new_with_device` (mount or format).  `fuel` feeds the
`Layout::new` loop; `none` also covers the foreign-magic panic. -/
def new_with_device (device : Disk) (fuel : Nat) : Option Filesystem :=
  match read_superblock device with
  | none => none
  | some (sb, is_initialized) =>
    match Layout.new sb.total_blocks fuel with
    | none => none
    | some layout =>
      let inode_bitmap_raw := readBlocksBytes device layout.inode_bitmap_start
        layout.inode_bitmap_blocks
      let data_bitmap_raw := readBlocksBytes device layout.data_bitmap_start
        layout.data_bitmap_blocks
      let bitmaps :=
        if is_initialized then
          (Bitmap.from_bytes inode_bitmap_raw, Bitmap.from_bytes data_bitmap_raw)
        else
          (Bitmap.new (BLOCK_SIZE * layout.inode_bitmap_blocks),
           Bitmap.new (BLOCK_SIZE * layout.data_bitmap_blocks))
      some { inode_bitmap := bitmaps.1
             data_bitmap := bitmaps.2
             inode_cache := INodeCache.new layout
             block_device := device
             layout := layout }

/-- `Filesystem::write_inode_to_disk`: read-modify-write of the inode's
table block. -/
def Filesystem.write_inode_to_disk (fs : Filesystem) (inode_index : Nat) (inode : INode) :
    Filesystem :=
  let p := fs.layout.inode_to_block inode_index
  let buf := fs.block_device.read_block p.1
  let buf2 := bufWrite buf p.2 inode.to_bytes
  { fs with block_device := fs.block_device.write_block p.1 buf2 }

/-- `Filesystem::new_inode`: allocate a free inode slot (`find_free`
`.unwrap()` = `none` on exhaustion), set its bitmap bit, write it to disk
and register it in the cache. -/
def Filesystem.new_inode (fs : Filesystem) (inode : INode) : Option (Nat × Filesystem) :=
  match fs.inode_bitmap.find_free with
  | none => none
  | some free =>
    let fs1 := { fs with inode_bitmap := fs.inode_bitmap.set free }
    let fs2 := fs1.write_inode_to_disk free inode
    let fs3 := { fs2 with inode_cache := fs2.inode_cache.register_new_inode free inode }
    some (free, fs3)

/-- `Filesystem::byte_compare`: compare a candidate name against a stored
24-byte name up to its first NUL, skipping one stored leading slash. -/
def byte_compare (s : List Nat) (bytes : List Nat) : Bool :=
  let len := (bytes.takeWhile (fun b => b ≠ 0)).length
  let offset := if bytes.getD 0 0 = 47 then 1 else 0
  decide (s = (bytes.take len).drop offset)

/-- The block-reading loop of `Filesystem::read_dir_entry`. -/
def read_dir_blocks (device : Disk) (max_items : Nat) :
    List Nat → List DirEntry → List DirEntry
  | [], res => res
  | bi :: rest, res =>
    let buf := device.read_block bi
    let items_in_block := min (max_items - res.length) DIR_ENTRY_PER_BLOCK
    let res2 := res ++ (List.range items_in_block).map
      (fun i => DirEntry.from_bytes (fun j => buf (i * DIR_ENTRY_SIZE + j)))
    if res2.length = max_items then res2 else read_dir_blocks device max_items rest res2

/-- `Filesystem::read_dir_entry`: decode `size / 28` entries from the
assigned data blocks in order. -/
def Filesystem.read_dir_entry (fs : Filesystem) (inode_index : Nat) :
    List DirEntry × Filesystem :=
  let r := fs.inode_cache.get inode_index fs.block_device
  let inode := r.1
  let fs := { fs with inode_cache := r.2 }
  if inode.size = 0 then ([], fs)
  else
    let max_items := inode.size / DIR_ENTRY_SIZE
    let bis := (inode.blocks.filter (fun b => !b.isNone)).map fs.layout.data_to_block
    (read_dir_blocks fs.block_device max_items bis [], fs)

/-- `Filesystem::write_dir_entry`: append one 28-byte entry to the inode's
directory content, allocating a fresh data block when the current slot is
the `none` sentinel.  `none` = panic (data bitmap exhausted). -/
def Filesystem.write_dir_entry (fs : Filesystem) (entry : DirEntry) (inode_index : Nat) :
    Option (Except Error Unit × Filesystem) :=
  let r := fs.inode_cache.get_mut inode_index fs.block_device
  let inode := r.1
  let fs := { fs with inode_cache := r.2 }
  let current_entries := inode.size / DIR_ENTRY_SIZE
  let inode_internal_block_index := current_entries / DIR_ENTRY_PER_BLOCK
  if 16 ≤ inode_internal_block_index then some (Except.error Error.NoSpaceForDirEntry, fs)
  else
    let alloc :=
      if (inode.blocks.getD inode_internal_block_index none).isNone then
        match fs.data_bitmap.find_free with
        | none => none
        | some free =>
          some ({ fs with data_bitmap := fs.data_bitmap.set free },
            { inode with blocks :=
                inode.blocks.set inode_internal_block_index (fs.layout.data_block free) })
      else some (fs, inode)
    match alloc with
    | none => none
    | some (fs, inode) =>
      let data_block_index := inode.blocks.getD inode_internal_block_index none
      let offset_in_block := current_entries % DIR_ENTRY_PER_BLOCK * DIR_ENTRY_SIZE
      let block_index := fs.layout.data_to_block data_block_index
      let buf := fs.block_device.read_block block_index
      let buf2 := bufWrite buf offset_in_block entry.to_bytes
      let fs := { fs with block_device := fs.block_device.write_block block_index buf2 }
      let inode2 := { inode with size := inode.size + DIR_ENTRY_SIZE }
      let fs := { fs with inode_cache := fs.inode_cache.put inode_index inode2 }
      some (Except.ok (), fs)

/-- The path walk of `new_dir_entry`: returns the final directory's inode
index and the previous (one-before-last) index, or
`DirectoryDoesNotExist`. -/
def Filesystem.walk_path (fs : Filesystem) :
    List (List Nat) → Nat → Nat → Except Error (Nat × Nat) × Filesystem
  | [], current_index, prev_index => (Except.ok (current_index, prev_index), fs)
  | dir :: rest, current_index, _prev_index =>
    let r := fs.read_dir_entry current_index
    let fs := r.2
    match r.1.find? (fun e => byte_compare dir e.name) with
    | none => (Except.error Error.DirectoryDoesNotExist, fs)
    | some next => fs.walk_path rest next.inode current_index

/-- `Filesystem::new_dir_entry` (the body of `mkdir` / `create_file`).
`none` = panic; note the `.unwrap()` on every inner `write_dir_entry`. -/
def Filesystem.new_dir_entry (fs : Filesystem) (name : List Nat) (entry_type : Entry) :
    Option (Except Error Nat × Filesystem) :=
  let path0 := (List.splitOn 47 name).drop 1
  match path0.getLast? with
  | none => none
  | some new_entry =>
    let path := path0.dropLast
    match fs.walk_path path 0 0 with
    | (Except.error e, fs) => some (Except.error e, fs)
    | (Except.ok (current_index, prev_index), fs) =>
      let r := fs.read_dir_entry current_index
      let fs := r.2
      if r.1.any (fun e => byte_compare new_entry e.name) then
        some (Except.error Error.DuplicatedEntry, fs)
      else
        let new_inode_v :=
          match entry_type with
          | Entry.File => INode.empty_file
          | Entry.Directory => INode.empty_directory
        match fs.new_inode new_inode_v with
        | none => none
        | some (inode_index, fs) =>
          let new_directory := DirEntry.new new_entry inode_index
          match fs.write_dir_entry new_directory current_index with
          | some (Except.ok _, fs) =>
            if new_inode_v.is_directory then
              let this := DirEntry.new [46] inode_index
              let parent := DirEntry.new [46, 46] prev_index
              match fs.write_dir_entry this inode_index with
              | some (Except.ok _, fs) =>
                match fs.write_dir_entry parent inode_index with
                | some (Except.ok _, fs) => some (Except.ok inode_index, fs)
                | _ => none
              | _ => none
            else some (Except.ok inode_index, fs)
          | _ => none

def Filesystem.mkdir (fs : Filesystem) (path : List Nat) : Option (Except Error Nat × Filesystem) :=
  fs.new_dir_entry path Entry.Directory

def Filesystem.create_file (fs : Filesystem) (path : List Nat) :
    Option (Except Error Nat × Filesystem) :=
  fs.new_dir_entry path Entry.File

/-- `Filesystem::create_empty_root` (format path): root inode plus its `.`
and `..` entries, both pointing at the root itself. -/
def Filesystem.create_empty_root (fs : Filesystem) : Option Filesystem :=
  match fs.new_inode INode.empty_directory with
  | none => none
  | some (root_inode_index, fs) =>
    let this := DirEntry.new [46] root_inode_index
    let this_too := DirEntry.new [46, 46] root_inode_index
    match fs.write_dir_entry this root_inode_index with
    | some (Except.ok _, fs) =>
      match fs.write_dir_entry this_too root_inode_index with
      | some (Except.ok _, fs) => some fs
      | _ => none
    | _ => none

/-- The `while total_bytes > 0` loop of `append_to_file`, recursing on the
remaining bytes.  Returns the updated inode and state; `none` = panic (data
bitmap exhausted).  The fuel only bounds the loop so that it stays a
structural recursion: every iteration writes at least one byte, so the
`remaining.length + 1` passed by `append_to_file` can never run out. -/
def append_loop (fuel : Nat) (fs : Filesystem) (inode : INode) (remaining : List Nat) :
    Option (INode × Filesystem) :=
  match fuel with
  | 0 => none
  | fuel + 1 =>
  if remaining = [] then some (inode, fs)
  else
    let last_used_block_index := inode.size / BLOCK_SIZE
    let alloc :=
      if (inode.blocks.getD last_used_block_index none).isNone then
        match fs.data_bitmap.find_free with
        | none => none
        | some free =>
          some ({ fs with data_bitmap := fs.data_bitmap.set free },
            { inode with blocks :=
                inode.blocks.set last_used_block_index (fs.layout.data_block free) })
      else some (fs, inode)
    match alloc with
    | none => none
    | some (fs, inode) =>
      let data_block_index := inode.blocks.getD (inode.size / BLOCK_SIZE) none
      let byte_offset := inode.size % BLOCK_SIZE
      let bytes_to_write := min remaining.length (BLOCK_SIZE - byte_offset)
      let block_index := fs.layout.data_to_block data_block_index
      let buf := fs.block_device.read_block block_index
      let buf2 := bufWrite buf byte_offset (remaining.take bytes_to_write)
      let fs := { fs with block_device := fs.block_device.write_block block_index buf2 }
      let inode2 := { inode with size := inode.size + bytes_to_write }
      append_loop fuel fs inode2 (remaining.drop bytes_to_write)

/-- `Filesystem::append_to_file`. -/
def Filesystem.append_to_file (fs : Filesystem) (inode_index : Nat) (bytes : List Nat) :
    Option (Except Error Nat × Filesystem) :=
  let r := fs.inode_cache.get_mut inode_index fs.block_device
  let inode := r.1
  let fs := { fs with inode_cache := r.2 }
  if inode.is_directory then some (Except.error Error.NotAFile, fs)
  else if 16 * BLOCK_SIZE < inode.size + bytes.length then
    some (Except.error Error.NoSpaceInFile, fs)
  else
    match append_loop (bytes.length + 1) fs inode bytes with
    | none => none
    | some (inode2, fs2) =>
      some (Except.ok bytes.length,
        { fs2 with inode_cache := fs2.inode_cache.put inode_index inode2 })

/-- The block loop of `read_file`: each block contributes
`min(total_bytes, BLOCK_SIZE)` bytes decoded through
`str::from_utf8(..).unwrap()` (`none` = panic on invalid UTF-8). -/
def read_blocks_go (device : Disk) : List Nat → Nat → Option (List Nat)
  | [], _ => some []
  | bi :: rest, total_bytes =>
    let buf := device.read_block bi
    let valid_bytes := min total_bytes BLOCK_SIZE
    let chunk := bufBytes buf 0 valid_bytes
    if validUtf8 chunk then
      (read_blocks_go device rest (total_bytes - valid_bytes)).map (fun s => chunk ++ s)
    else none

/-- `Filesystem::read_file`: the whole contents as bytes.  `none` = panic
(on a directory, or on content a block of which is not valid UTF-8). -/
def Filesystem.read_file (fs : Filesystem) (inode_index : Nat) :
    Option (List Nat × Filesystem) :=
  let r := fs.inode_cache.get_mut inode_index fs.block_device
  let inode := r.1
  let fs := { fs with inode_cache := r.2 }
  if inode.is_directory then none
  else
    let bis := (inode.blocks.filter (fun b => !b.isNone)).map fs.layout.data_to_block
    (read_blocks_go fs.block_device bis inode.size).map (fun s => (s, fs))

/-- `Filesystem::write_superblock` to block 0 (rest of the block zero). -/
def Filesystem.write_superblock (fs : Filesystem) (superblock : SuperBlock) : Filesystem :=
  let buf := bufWrite (fun _ => 0) 0 superblock.to_bytes
  { fs with block_device := fs.block_device.write_block 0 buf }

/-- Pad a byte vector with zeros to a whole number of blocks. -/
def padToBlock (v : List Nat) : List Nat :=
  if v.length % BLOCK_SIZE = 0 then v
  else v ++ List.replicate (BLOCK_SIZE - v.length % BLOCK_SIZE) 0

/-- Write a byte vector in `BLOCK_SIZE` chunks at consecutive blocks. -/
def write_chunks (d : Disk) (start : Nat) (v : List Nat) : Disk :=
  if hv : v = [] then d
  else
    let chunk := v.take BLOCK_SIZE
    let d2 := d.write_block start (fun i => chunk.getD i 0)
    write_chunks d2 (start + 1) (v.drop BLOCK_SIZE)
termination_by v.length
decreasing_by
  simp only [List.length_drop]
  have h1 : v.length ≠ 0 := fun hl => hv (List.eq_nil_of_length_eq_zero hl)
  have h2 : (0 : Nat) < BLOCK_SIZE := by decide
  omega

/-- `Filesystem::flush`: write every dirty inode back, then the superblock,
then both bitmaps (padded to block multiples). -/
def Filesystem.flush (fs : Filesystem) : Option Filesystem :=
  let d := fs.inode_cache.drain
  match d.1 with
  | none => none
  | some items =>
    let fs := { fs with inode_cache := d.2 }
    let fs := items.foldl (fun fs p => fs.write_inode_to_disk p.1 p.2) fs
    let superblock : SuperBlock :=
      { magic := MAGIC, block_size := BLOCK_SIZE, total_blocks := fs.block_device.total_blocks }
    let fs := fs.write_superblock superblock
    let inode_bitmap_vec := padToBlock fs.inode_bitmap.to_bytes
    let d1 := write_chunks fs.block_device fs.layout.inode_bitmap_start inode_bitmap_vec
    let fs := { fs with block_device := d1 }
    let data_bitmap_vec := padToBlock fs.data_bitmap.to_bytes
    let d2 := write_chunks fs.block_device fs.layout.data_bitmap_start data_bitmap_vec
    let fs := { fs with block_device := d2 }
    some fs

/-! ## Concrete scenario states

`fsFmt` is the filesystem freshly formatted on an all-zero 2048-block RAM
disk (1 MiB / 512, as in `ramdisk.rs`), exactly as `init_with_device` builds
it: `new_with_device` then `create_empty_root`.  The `getD fsJunk` fallbacks
are never taken (the pipeline is fully evaluated by `decide` below). -/

def fsJunk : Filesystem :=
  ⟨zeroDisk 0, ⟨0, []⟩, ⟨0, []⟩, ⟨[], ⟨0, []⟩, none⟩, ⟨0, 0, 0, 0, 0, 0, 0, 0⟩⟩

def fsFmt : Filesystem :=
  ((new_with_device (zeroDisk 2048) 10).getD fsJunk).create_empty_root.getD fsJunk

/-- `mkdir("/a")` on the fresh filesystem. -/
def mkA : Except Error Nat × Filesystem :=
  (fsFmt.mkdir [47, 97]).getD (Except.error Error.NotAFile, fsJunk)

/-- then `mkdir("/a/b")`. -/
def mkAB : Except Error Nat × Filesystem :=
  (mkA.2.mkdir [47, 97, 47, 98]).getD (Except.error Error.NotAFile, fsJunk)

set_option maxRecDepth 100000 in
/-- C1 (code bug): after `mkdir("/a")` (inode 1) and `mkdir("/a/b")`
(inode 2), reading `/a/b` does yield exactly `.` and `..` with `.` at inode
2 — but `..` holds inode 0 (the root, the walk's previous-before-last
directory), not inode 1, even though the entry `b → 2` was created inside
directory inode 1 (shown by reading directory 1).  So `..` points at the
grandparent for depth-≥-2 paths, contradicting the claim that it points at
the parent. -/
theorem C1_mkdir_dotdot_is_grandparent :
    mkA.1 = Except.ok 1
    ∧ mkAB.1 = Except.ok 2
    ∧ (mkAB.2.read_dir_entry 2).1 = [DirEntry.new [46] 2, DirEntry.new [46, 46] 0]
    ∧ (mkAB.2.read_dir_entry 1).1
        = [DirEntry.new [46] 1, DirEntry.new [46, 46] 0, DirEntry.new [98] 2] := by
  refine ⟨?_, ?_, ?_, ?_⟩ <;> decide

/-- The layout `Layout::new(2048)` produces (checked below). -/
def layout2048 : Layout := ⟨1, 1, 2, 1, 3, 586, 589, 1459⟩

theorem layout2048_eq : Layout.new 2048 10 = some layout2048 := by decide

/-- A root directory whose 16 direct blocks are completely full:
`16 * DIR_ENTRY_PER_BLOCK = 288` entries (such a state is reached by
creating 286 entries in `/`; the 288 stored names here are all-NUL, which no
non-empty candidate name matches, so the duplicate check passes). -/
def fullRootInode : INode :=
  { size := 288 * DIR_ENTRY_SIZE
    blocks := (List.range 16).map (fun j => some (589 + j))
    is_directory := true }

def fsFullRoot : Filesystem :=
  { block_device := zeroDisk 2048
    inode_bitmap := (Bitmap.new 512).set 0
    data_bitmap := (List.range 17).foldl (fun b i => b.set i) (Bitmap.new 512)
    inode_cache := (INodeCache.new layout2048).register_new_inode 0 fullRootInode
    layout := layout2048 }

set_option maxRecDepth 100000 in
/-- C2 (code bug): with the final parent's 16 direct slots exhausted,
`write_dir_entry` does produce `Err(NoSpaceForDirEntry)` — but
`new_dir_entry` calls it with `.unwrap()`, so `create_file("/x")` panics
(`none`) instead of returning the error to the caller. -/
theorem C2_full_parent_panics_instead_of_error :
    (fsFullRoot.write_dir_entry (DirEntry.new [120] 1) 0).map (fun r => r.1)
        = some (Except.error Error.NoSpaceForDirEntry)
    ∧ (fsFullRoot.new_dir_entry [47, 120] Entry.File).isSome = false := by
  exact ⟨by decide, by decide⟩

/-- `create_file("/f")` on the fresh filesystem (inode 1). -/
def mkF : Except Error Nat × Filesystem :=
  (fsFmt.create_file [47, 102]).getD (Except.error Error.NotAFile, fsJunk)

def fsFile : Filesystem := mkF.2

/-- Appending the single byte `0xFF` to the fresh file `/f`. -/
def apFF : Except Error Nat × Filesystem :=
  (fsFile.append_to_file 1 [255]).getD (Except.error Error.NotAFile, fsJunk)

set_option maxRecDepth 100000 in
/-- C3 counterexample: `s = [0xFF]` has `|s| = 1 ≤ MAX_FILE_SIZE` and the
append succeeds, but `read_file` panics (`str::from_utf8(..).unwrap()` on
the non-UTF-8 content) instead of returning `s` — so the round trip fails
for arbitrary byte values. -/
theorem C3_counterexample_invalid_utf8 :
    mkF.1 = Except.ok 1
    ∧ apFF.1 = Except.ok 1
    ∧ (apFF.2.read_file 1).isSome = false := by
  refine ⟨?_, ?_, ?_⟩ <;> decide

set_option maxRecDepth 100000 in
/-- C6 counterexample: `s1 = [0xFF]`, `s2 = []`: both appends succeed and
`|s1| + |s2| = 1 ≤ MAX_FILE_SIZE`, yet the file's read contents are not
`s1 ++ s2` — `read_file` panics on the non-UTF-8 byte — so the biconditional
fails as stated. -/
theorem C6_counterexample_invalid_utf8 :
    apFF.1 = Except.ok 1
    ∧ (apFF.2.append_to_file 1 []).map (fun r => r.1) = some (Except.ok 0)
    ∧ ((apFF.2.append_to_file 1 []).map (fun r => (r.2.read_file 1).isSome))
        = some false := by
  refine ⟨?_, ?_, ?_⟩ <;> decide

/-- C9: a name longer than 24 bytes is silently truncated by
`DirEntry::new` — the stored 24-byte array is exactly the first 24 bytes,
no error — and `byte_compare` of the original over-long name against the
stored array is always `false` (the compared slice is at most 24 bytes,
shorter than the candidate), so neither lookup nor the duplicate check can
ever match such an entry. -/
theorem C9_long_name_truncated_never_matches (s : List Nat) (i : Nat)
    (h : 24 < s.length) :
    (DirEntry.new s i).name = s.take 24
    ∧ byte_compare s (DirEntry.new s i).name = false := by
  have hmin : min s.length 24 = 24 := by omega
  have hname : (DirEntry.new s i).name = s.take 24 := by
    show s.take (min s.length 24) ++ List.replicate (24 - min s.length 24) 0 = s.take 24
    rw [hmin]
    simp
  refine ⟨hname, ?_⟩
  show decide (s = _) = false
  apply decide_eq_false
  intro heq
  have h24 : (DirEntry.new s i).name.length = 24 := by
    rw [hname, List.length_take]
    omega
  have hle : (((DirEntry.new s i).name.take
      (((DirEntry.new s i).name.takeWhile (fun b => b ≠ 0)).length)).drop
        (if (DirEntry.new s i).name.getD 0 0 = 47 then 1 else 0)).length ≤ 24 := by
    rw [List.length_drop, List.length_take]
    omega
  have := congrArg List.length heq
  simp only at this
  omega

/-- Witness for C9: a 25-byte name. -/
theorem C9_long_name_truncated_never_matches_witness :
    24 < (List.replicate 25 97 : List Nat).length
    ∧ ((DirEntry.new (List.replicate 25 97) 7).name = (List.replicate 25 97).take 24
      ∧ byte_compare (List.replicate 25 97) (DirEntry.new (List.replicate 25 97) 7).name
          = false) :=
  ⟨by decide, C9_long_name_truncated_never_matches (List.replicate 25 97) 7 (by decide)⟩

/-! ## Allocation on a prefix-shaped data bitmap

During the fresh-file scenarios the data bitmap always has the shape
`(2 ^ m - 1) :: 0s`: bits `0 .. m-1` set (root block plus the file's blocks
so far).  `find_free` then returns `m` and `set m` extends the prefix. -/

theorem ctz_pow_sub_pow (m : Nat) :
    ∀ K, m < K → K ≤ 32 → ctz (2 ^ K - 2 ^ m) = m := by
  induction m with
  | zero =>
    intro K hK _
    apply ctz_odd
    have h1 : (2:Nat) ^ K % 2 = 0 := by
      have : (2:Nat) ^ K = 2 * 2 ^ (K - 1) := by
        rw [← pow_succ']
        congr 1
        omega
      omega
    have h2 : (1:Nat) ≤ 2 ^ K := Nat.one_le_two_pow
    omega
  | succ m ih =>
    intro K hK hK32
    have hKm : (2:Nat) ^ (m + 1) < 2 ^ K := Nat.pow_lt_pow_right (by omega) (by omega)
    have hK2 : (2:Nat) ^ K = 2 * 2 ^ (K - 1) := by
      rw [← pow_succ']
      congr 1
      omega
    have hm2 : (2:Nat) ^ (m + 1) = 2 * 2 ^ m := by rw [pow_succ]; ring
    have h32 : (2:Nat) ^ K ≤ 2 ^ 32 := Nat.pow_le_pow_right (by omega) hK32
    have h2_32 : (2:Nat) ^ 32 = 4294967296 := by norm_num
    have hp : (1:Nat) ≤ 2 ^ m := Nat.one_le_two_pow
    have heven : (2 ^ K - 2 ^ (m + 1)) % 2 = 0 := by omega
    have hne : 2 ^ K - 2 ^ (m + 1) ≠ 0 := by omega
    rw [ctz_even _ hne heven (by omega)]
    have hm1 : (2:Nat) ^ m ≤ 2 ^ (K - 1) := Nat.pow_le_pow_right (by omega) (by omega)
    have hdiv : (2 ^ K - 2 ^ (m + 1)) / 2 = 2 ^ (K - 1) - 2 ^ m := by omega
    rw [hdiv, ih (K - 1) (by omega) (by omega)]

theorem u32not_pow_sub_one (m : Nat) (h : m ≤ 32) :
    u32not (2 ^ m - 1) = 2 ^ 32 - 2 ^ m := by
  have h1 : (2:Nat) ^ m ≤ 2 ^ 32 := Nat.pow_le_pow_right (by omega) h
  have h2 : (2:Nat) ^ 32 = 4294967296 := by norm_num
  have h3 : (1:Nat) ≤ 2 ^ m := Nat.one_le_two_pow
  show U32MAX - (2 ^ m - 1) = 2 ^ 32 - 2 ^ m
  show 4294967295 - (2 ^ m - 1) = 2 ^ 32 - 2 ^ m
  omega

/-- `find_free` on a prefix bitmap returns the prefix length. -/
theorem find_free_prefix (len m : Nat) (rest : List Nat) (h : m < 32) :
    Bitmap.find_free ⟨len, (2 ^ m - 1) :: rest⟩ = some m := by
  show find_free_go 0 ((2 ^ m - 1) :: rest) = some m
  rw [find_free_go]
  have hne : 2 ^ m - 1 ≠ U32MAX := by
    have : (2:Nat) ^ m ≤ 2 ^ 31 := Nat.pow_le_pow_right (by omega) (by omega)
    have : (2:Nat) ^ 31 = 2147483648 := by norm_num
    show 2 ^ m - 1 ≠ 4294967295
    omega
  rw [if_pos hne, u32not_pow_sub_one m (by omega), ctz_pow_sub_pow m 32 h (by omega)]
  simp

theorem or_pow_sub_one (m : Nat) : (2 ^ m - 1) ||| 1 <<< m = 2 ^ (m + 1) - 1 := by
  rw [Nat.one_shiftLeft]
  apply Nat.eq_of_testBit_eq
  intro i
  rw [Nat.testBit_or, Nat.testBit_two_pow_sub_one, Nat.testBit_two_pow_sub_one,
    Nat.testBit_two_pow, ← Bool.decide_or, decide_eq_decide]
  omega

/-- `set m` on a prefix bitmap of `m` bits extends the prefix. -/
theorem set_prefix (len m : Nat) (rest : List Nat) (h : m < 32) :
    Bitmap.set ⟨len, (2 ^ m - 1) :: rest⟩ m
      = ⟨len, (2 ^ (m + 1) - 1) :: rest⟩ := by
  show Bitmap.mk len (((2 ^ m - 1) :: rest).set (m / 32)
    ((((2 ^ m - 1) :: rest).getD (m / 32) 0) ||| 1 <<< (m % 32))) = _
  rw [(by omega : m / 32 = 0), (by omega : m % 32 = m)]
  show Bitmap.mk len ((((2 ^ m - 1)) ||| 1 <<< m) :: rest) = _
  rw [or_pow_sub_one]

/-! ## The fresh file's block list

`fileBlocks u` is the block slot array of a file holding `u` data blocks
allocated consecutively from absolute block 590 (data bit 1, the first free
data bit after the root directory's block in the scenarios below). -/

def fileBlocks (u : Nat) : List DataBlockIndex :=
  (List.range 16).map (fun j => if j < u then some (590 + j) else none)

theorem fileBlocks_getElem? (u j : Nat) :
    (fileBlocks u)[j]?
      = if j < 16 then some (if j < u then some (590 + j) else none) else none := by
  unfold fileBlocks
  rw [List.getElem?_map]
  rcases Nat.lt_or_ge j 16 with h | h
  · rw [List.getElem?_range h, if_pos h]
    rfl
  · rw [List.getElem?_eq_none (by simpa using h), if_neg (by omega)]
    rfl

theorem fileBlocks_getD (u j : Nat) :
    (fileBlocks u).getD j none
      = if j < 16 then (if j < u then some (590 + j) else none) else none := by
  rw [List.getD_eq_getElem?_getD, fileBlocks_getElem?]
  rcases Nat.lt_or_ge j 16 with h | h
  · rw [if_pos h, if_pos h]
    rfl
  · rw [if_neg (by omega), if_neg (by omega)]
    rfl

theorem fileBlocks_length (u : Nat) : (fileBlocks u).length = 16 := by
  unfold fileBlocks
  simp

theorem fileBlocks_set (u : Nat) (h : u < 16) :
    (fileBlocks u).set u (some (590 + u)) = fileBlocks (u + 1) := by
  apply List.ext_getElem?
  intro j
  by_cases hju : u = j
  · subst hju
    rw [List.getElem?_set_self (by rw [fileBlocks_length]; omega), fileBlocks_getElem?,
      if_pos h, if_pos (show u < u + 1 by omega)]
  · rw [List.getElem?_set_ne hju, fileBlocks_getElem?, fileBlocks_getElem?]
    rcases Nat.lt_or_ge j 16 with h16 | h16
    · rw [if_pos h16, if_pos h16]
      by_cases hlt : j < u
      · rw [if_pos hlt, if_pos (show j < u + 1 by omega)]
      · rw [if_neg hlt, if_neg (show ¬ j < u + 1 by omega)]
    · rw [if_neg (show ¬ j < 16 by omega), if_neg (show ¬ j < 16 by omega)]

theorem fileBlocks_filter (u : Nat) (h : u ≤ 16) :
    (fileBlocks u).filter (fun b => !b.isNone)
      = (List.range u).map (fun j => some (590 + j)) := by
  have key : ∀ n u, u ≤ n →
      (((List.range n).map (fun j => if j < u then some (590 + j) else none)).filter
        (fun b => !b.isNone))
        = (List.range u).map (fun j => some (590 + j)) := by
    intro n
    induction n with
    | zero =>
      intro u hu
      interval_cases u
      simp
    | succ n ih =>
      intro u hu
      rw [List.range_succ, List.map_append, List.filter_append]
      rcases Nat.lt_or_ge u (n + 1) with hun | hun
      · rw [ih u (by omega)]
        simp only [List.map_cons, List.map_nil, List.filter_cons]
        rw [if_neg (show ¬ n < u by omega)]
        simp
      · have hu1 : u = n + 1 := by omega
        subst hu1
        have hcong : (List.range n).map (fun j => if j < n + 1 then some (590 + j) else none)
            = (List.range n).map (fun j => if j < n then some (590 + j) else none) := by
          apply List.map_congr_left
          intro j hj
          rw [List.mem_range] at hj
          rw [if_pos (by omega), if_pos hj]
        rw [hcong, ih n (by omega)]
        simp only [List.map_cons, List.map_nil, List.filter_cons]
        rw [if_pos (show n < n + 1 by omega)]
        simp [List.range_succ]
  exact key 16 u h


theorem bufWrite_lo (buf : Nat → Nat) (off : Nat) (data : List Nat) (i : Nat)
    (h : i < off) : bufWrite buf off data i = buf i := by
  unfold bufWrite
  rw [if_neg (by omega)]

theorem bufWrite_hi (buf : Nat → Nat) (off : Nat) (data : List Nat) (i : Nat)
    (h : off + data.length ≤ i) : bufWrite buf off data i = buf i := by
  unfold bufWrite
  rw [if_neg (by omega)]

theorem bufWrite_in (buf : Nat → Nat) (off : Nat) (data : List Nat) (i : Nat)
    (h1 : off ≤ i) (h2 : i < off + data.length) :
    bufWrite buf off data i = data.getD (i - off) 0 := by
  unfold bufWrite
  rw [if_pos (by omega)]

theorem write_block_fn_same (d : Disk) (idx : Nat) (data : Nat → Nat) :
    (d.write_block idx data).fn idx = data := by
  unfold Disk.write_block
  simp

theorem write_block_fn_other (d : Disk) (idx b : Nat) (data : Nat → Nat) (h : b ≠ idx) :
    (d.write_block idx data).fn b = d.fn b := by
  unfold Disk.write_block
  simp [h]

theorem find_free_arr (b : Bitmap) (m : Nat) (rest : List Nat)
    (h : b.arr = (2 ^ m - 1) :: rest) (hm : m < 32) : b.find_free = some m := by
  show find_free_go 0 b.arr = some m
  rw [h]
  exact find_free_prefix b.len m rest hm

theorem set_arr (b : Bitmap) (m : Nat) (rest : List Nat)
    (h : b.arr = (2 ^ m - 1) :: rest) (hm : m < 32) :
    (b.set m).arr = (2 ^ (m + 1) - 1) :: rest := by
  show (b.arr.set (m / 32) (b.arr.getD (m / 32) 0 ||| 1 <<< (m % 32))) = _
  rw [h, (by omega : m / 32 = 0), (by omega : m % 32 = m)]
  show (2 ^ m - 1 ||| 1 <<< m) :: rest = _
  rw [or_pow_sub_one]

/-- Invariant preservation through the whole `append_to_file` loop for a
file whose `u` data blocks were allocated consecutively from data bit 1
(absolute block 590) and whose data bitmap is the corresponding prefix. -/
theorem append_loop_inv (fuel : Nat) :
    ∀ (rem c : List Nat) (fs : Filesystem) (inode : INode),
    rem.length < fuel →
    fs.layout = layout2048 →
    fs.data_bitmap.arr = (2 ^ ((c.length + 511) / 512 + 1) - 1) :: List.replicate 16 0 →
    inode.size = c.length →
    inode.is_directory = false →
    inode.blocks = fileBlocks ((c.length + 511) / 512) →
    c.length + rem.length ≤ 16 * BLOCK_SIZE →
    (∀ k, k < c.length → fs.block_device.fn (590 + k / 512) (k % 512) = c.getD k 0) →
    ∃ inode' fs',
      append_loop fuel fs inode rem = some (inode', fs')
      ∧ inode'.size = (c ++ rem).length
      ∧ inode'.is_directory = false
      ∧ inode'.blocks = fileBlocks (((c ++ rem).length + 511) / 512)
      ∧ fs'.layout = layout2048
      ∧ fs'.data_bitmap.arr
          = (2 ^ (((c ++ rem).length + 511) / 512 + 1) - 1) :: List.replicate 16 0
      ∧ fs'.inode_cache = fs.inode_cache
      ∧ (∀ k, k < (c ++ rem).length →
          fs'.block_device.fn (590 + k / 512) (k % 512) = (c ++ rem).getD k 0) := by
  induction fuel with
  | zero => intro rem c fs inode hfuel; omega
  | succ fuel ih =>
    intro rem c fs inode hfuel hlay hbm hsz hdir hblocks hcap hdisk
    have hBS : (BLOCK_SIZE : Nat) = 512 := rfl
    by_cases hrem : rem = []
    · subst hrem
      refine ⟨inode, fs, ?_, by simpa using hsz, hdir, by simpa using hblocks, hlay,
        by simpa using hbm, rfl, by simpa using hdisk⟩
      simp [append_loop]
    · -- the loop body
      have hz : c.length ≤ 8191 := by
        have : 1 ≤ rem.length := by
          cases rem with
          | nil => exact absurd rfl hrem
          | cons a l => simp
        rw [hBS] at hcap
        omega
      have hu16 : (c.length + 511) / 512 ≤ 16 := by omega
      have hd16 : c.length / 512 ≤ 15 := by omega
      have hlt : inode.size / BLOCK_SIZE = c.length / 512 := by rw [hsz, hBS]
      by_cases hmod : c.length % 512 = 0
      · -- a fresh block is allocated
        have hslot : inode.blocks.getD (inode.size / BLOCK_SIZE) none = none := by
          rw [hlt, hblocks, fileBlocks_getD, if_pos (by omega), if_neg (by omega)]
        have hff : fs.data_bitmap.find_free = some ((c.length + 511) / 512 + 1) :=
          find_free_arr _ _ _ hbm (by omega)
        have hdb : fs.layout.data_block ((c.length + 511) / 512 + 1)
            = some (590 + c.length / 512) := by
          rw [hlay]
          show (if 589 + ((c.length + 511) / 512 + 1) = 0 then none
            else some (589 + ((c.length + 511) / 512 + 1))) = _
          rw [if_neg (by omega)]
          congr 1
          omega
        have hceil : (c.length + 511) / 512 = c.length / 512 := by omega
        have hsetb : inode.blocks.set (c.length / 512)
            (fs.layout.data_block ((c.length + 511) / 512 + 1))
              = fileBlocks (c.length / 512 + 1) := by
          rw [hdb, hblocks, hceil]
          exact fileBlocks_set _ (by omega)
        simp only [append_loop, if_neg hrem, hsz, hBS]
        have hslot' : inode.blocks.getD (c.length / 512) none = none := by
          rw [hblocks, fileBlocks_getD, if_pos (by omega), if_neg (by omega)]
        rw [hslot']
        simp only [Option.isNone_none, if_true, hff]
        rw [hsetb]
        have hgetb : (fileBlocks (c.length / 512 + 1)).getD (c.length / 512) none
            = some (590 + c.length / 512) := by
          rw [fileBlocks_getD, if_pos (by omega), if_pos (by omega)]
        simp only [hgetb]
        have hd2b : fs.layout.data_to_block (some (590 + c.length / 512))
            = 590 + c.length / 512 := by
          rw [hlay]
          rfl
        rw [hd2b]
        have hrem1 : 1 ≤ rem.length := by
          cases rem with
          | nil => exact absurd rfl hrem
          | cons a l => simp
        set BTW := rem.length ⊓ (512 - c.length % 512) with hBTWdef
        have hBTWle : BTW ≤ rem.length := Nat.min_le_left _ _
        have hBTWle2 : BTW ≤ 512 - c.length % 512 := Nat.min_le_right _ _
        have hBTW1 : 1 ≤ BTW := le_min hrem1 (by omega)
        have hlen' : (c ++ rem.take BTW).length = c.length + BTW := by
          rw [List.length_append, List.length_take, Nat.min_eq_left hBTWle]
        have htl : (rem.take BTW).length = BTW := by
          rw [List.length_take, Nat.min_eq_left hBTWle]
        have hca : (c ++ rem.take BTW) ++ rem.drop BTW = c ++ rem := by
          rw [List.append_assoc, List.take_append_drop]
        rw [← hca]
        refine ih (rem.drop BTW) (c ++ rem.take BTW) _ _ ?_ ?_ ?_ ?_ ?_ ?_ ?_ ?_
        · rw [List.length_drop]
          omega
        · exact hlay
        · show (fs.data_bitmap.set ((c.length + 511) / 512 + 1)).arr = _
          rw [set_arr _ _ _ hbm (by omega), hlen',
            (by omega : (c.length + BTW + 511) / 512 + 1 = (c.length + 511) / 512 + 1 + 1)]
        · exact hlen'.symm
        · exact hdir
        · show fileBlocks (c.length / 512 + 1) = _
          rw [hlen']
          congr 1
          omega
        · rw [hlen', List.length_drop, hBS]
          omega
        · intro k hk
          rw [hlen'] at hk
          dsimp only
          by_cases hkc : k < c.length
          · rw [List.getD_append _ _ _ _ (by omega)]
            rw [write_block_fn_other _ _ _ _ (by omega)]
            exact hdisk k hkc
          · rw [List.getD_append_right _ _ _ _ (by omega)]
            rw [(by omega : 590 + k / 512 = 590 + c.length / 512), write_block_fn_same,
              bufWrite_in _ _ _ _ (by omega) (by rw [htl]; omega),
              (by omega : k % 512 - c.length % 512 = k - c.length)]
      · -- the current block still has room; no allocation happens
        have hq1 : (c.length + 511) / 512 = c.length / 512 + 1 := by omega
        have hslot : inode.blocks.getD (c.length / 512) none = some (590 + c.length / 512) := by
          rw [hblocks, fileBlocks_getD, if_pos (by omega), if_pos (by omega)]
        simp only [append_loop, if_neg hrem, hsz, hBS]
        rw [hslot]
        simp only [Option.isNone_some, Bool.false_eq_true, if_false]
        rw [hsz, hslot]
        have hd2b : fs.layout.data_to_block (some (590 + c.length / 512))
            = 590 + c.length / 512 := by
          rw [hlay]
          rfl
        rw [hd2b]
        have hrem1 : 1 ≤ rem.length := by
          cases rem with
          | nil => exact absurd rfl hrem
          | cons a l => simp
        set BTW := rem.length ⊓ (512 - c.length % 512) with hBTWdef
        have hBTWle : BTW ≤ rem.length := Nat.min_le_left _ _
        have hBTWle2 : BTW ≤ 512 - c.length % 512 := Nat.min_le_right _ _
        have hBTW1 : 1 ≤ BTW := le_min hrem1 (by omega)
        have hlen' : (c ++ rem.take BTW).length = c.length + BTW := by
          rw [List.length_append, List.length_take, Nat.min_eq_left hBTWle]
        have htl : (rem.take BTW).length = BTW := by
          rw [List.length_take, Nat.min_eq_left hBTWle]
        have hca : (c ++ rem.take BTW) ++ rem.drop BTW = c ++ rem := by
          rw [List.append_assoc, List.take_append_drop]
        rw [← hca]
        refine ih (rem.drop BTW) (c ++ rem.take BTW) _ _ ?_ ?_ ?_ ?_ ?_ ?_ ?_ ?_
        · rw [List.length_drop]
          omega
        · exact hlay
        · show fs.data_bitmap.arr = _
          rw [hbm, hlen',
            (by omega : (c.length + BTW + 511) / 512 + 1 = (c.length + 511) / 512 + 1)]
        · exact hlen'.symm
        · exact hdir
        · show inode.blocks = _
          rw [hblocks, hlen']
          congr 1
          omega
        · rw [hlen', List.length_drop, hBS]
          omega
        · intro k hk
          rw [hlen'] at hk
          dsimp only
          by_cases hkc : k < c.length
          · rw [List.getD_append _ _ _ _ (by omega)]
            by_cases hbk : k / 512 = c.length / 512
            · rw [(by omega : 590 + k / 512 = 590 + c.length / 512), write_block_fn_same,
                bufWrite_lo _ _ _ _ (by omega)]
              have := hdisk k hkc
              rw [(by omega : 590 + k / 512 = 590 + c.length / 512)] at this
              exact this
            · rw [write_block_fn_other _ _ _ _ (by omega)]
              exact hdisk k hkc
          · rw [List.getD_append_right _ _ _ _ (by omega)]
            rw [(by omega : 590 + k / 512 = 590 + c.length / 512), write_block_fn_same,
              bufWrite_in _ _ _ _ (by omega) (by rw [htl]; omega),
              (by omega : k % 512 - c.length % 512 = k - c.length)]

theorem bufBytes_chunk (device : Disk) (c : List Nat) (j : Nat)
    (hdisk : ∀ k, k < c.length → device.fn (590 + k / 512) (k % 512) = c.getD k 0)
    (hj : 512 * j < c.length) :
    bufBytes (device.read_block (590 + j)) 0 (min (c.length - 512 * j) 512)
      = (c.drop (512 * j)).take 512 := by
  apply List.ext_getElem
  · simp only [bufBytes, List.length_map, List.length_range, List.length_take,
      List.length_drop]
    omega
  · intro i h1 h2
    have hi : i < min (c.length - 512 * j) 512 := by
      simpa [bufBytes] using h1
    have hk : 512 * j + i < c.length := by omega
    simp only [bufBytes, List.getElem_map, List.getElem_range]
    rw [List.getElem_take, List.getElem_drop]
    have hv := hdisk (512 * j + i) hk
    rw [(by omega : (512 * j + i) / 512 = j), (by omega : (512 * j + i) % 512 = i),
      List.getD_eq_getElem _ _ hk] at hv
    show device.fn (590 + j) (0 + i) = _
    rw [(by omega : 0 + i = i)]
    exact hv

theorem read_go_eq (device : Disk) (c : List Nat)
    (hdisk : ∀ k, k < c.length → device.fn (590 + k / 512) (k % 512) = c.getD k 0)
    (hutf : ∀ j, validUtf8 ((c.drop (512 * j)).take 512) = true) :
    ∀ (n j : Nat), c.length ≤ 512 * j + 512 * n →
      read_blocks_go device ((List.range n).map (fun i => 590 + (j + i))) (c.length - 512 * j)
        = some (c.drop (512 * j)) := by
  intro n
  induction n with
  | zero =>
    intro j hle
    rw [List.range_zero, List.map_nil, read_blocks_go,
      List.drop_eq_nil_of_le (by omega)]
  | succ n ih =>
    intro j hle
    rw [List.range_succ_eq_map, List.map_cons]
    have hmap : (List.map Nat.succ (List.range n)).map (fun i => 590 + (j + i))
        = (List.range n).map (fun i => 590 + (j + 1 + i)) := by
      rw [List.map_map]
      refine List.map_congr_left ?_
      intro a _
      show 590 + (j + Nat.succ a) = 590 + (j + 1 + a)
      omega
    rw [hmap]
    simp only [read_blocks_go, Nat.add_zero, BLOCK_SIZE]
    by_cases hend : 512 * j < c.length
    · rw [bufBytes_chunk device c j hdisk hend, if_pos (hutf j),
        (by omega : c.length - 512 * j - min (c.length - 512 * j) 512
          = c.length - 512 * (j + 1)),
        ih (j + 1) (by omega), Option.map_some']
      have hdd : c.drop (512 * (j + 1)) = (c.drop (512 * j)).drop 512 := by
        rw [List.drop_drop, (by omega : 512 * j + 512 = 512 * (j + 1))]
      rw [hdd, List.take_append_drop]
    · have hch : bufBytes (device.read_block (590 + j)) 0 (min (c.length - 512 * j) 512)
          = [] := by
        rw [(by omega : c.length - 512 * j = 0)]
        rfl
      rw [hch, if_pos (by rfl),
        (by omega : c.length - 512 * j - min (c.length - 512 * j) 512
          = c.length - 512 * (j + 1)),
        ih (j + 1) (by omega), Option.map_some', List.nil_append,
        List.drop_eq_nil_of_le (by omega), List.drop_eq_nil_of_le (by omega)]

theorem read_go_top (device : Disk) (c : List Nat) (u : Nat)
    (hdisk : ∀ k, k < c.length → device.fn (590 + k / 512) (k % 512) = c.getD k 0)
    (hutf : ∀ j, validUtf8 ((c.drop (512 * j)).take 512) = true)
    (hle : c.length ≤ 512 * u) :
    read_blocks_go device ((List.range u).map (fun i => 590 + i)) c.length = some c := by
  have h := read_go_eq device c hdisk hutf u 0 (by omega)
  rw [(by omega : 512 * 0 = 0), Nat.sub_zero, List.drop_zero] at h
  rw [← h]
  congr 1
  refine List.map_congr_left ?_
  intro a _
  omega

theorem get_mut_cached (cache : INodeCache) (i : Nat) (ino : INode) (d : Disk)
    (hi : i < cache.inodes.length) (hc : cache.inodes.getD i none = some ino) :
    cache.get_mut i d = (ino, { cache with dirty := cache.dirty.set i }) := by
  unfold INodeCache.get_mut INodeCache.get INodeCache.reserve
  rw [if_neg (by omega)]
  dsimp only
  rw [hc]
  dsimp only
  rw [hc]
  rfl

theorem fileBlocks_bis (u : Nat) (L : Layout) (h : u ≤ 16) :
    ((fileBlocks u).filter (fun b => !b.isNone)).map L.data_to_block
      = (List.range u).map (fun i => 590 + i) := by
  rw [fileBlocks_filter _ h, List.map_map]
  exact List.map_congr_left (fun a _ => rfl)

set_option maxRecDepth 100000 in
/-- C3 (amended): for every byte sequence `s` with `|s| <= MAX_FILE_SIZE = 8192`
each of whose 512-byte chunks is valid UTF-8, appending `s` to the freshly
created file `/f` (inode 1) via `append_to_file` succeeds and a subsequent
`read_file` returns exactly the bytes of `s`.  (The UTF-8 proviso cannot be
dropped: see the counterexample theorem for the original claim.) -/
theorem C3_roundtrip (s : List Nat) (hlen : s.length ≤ 8192)
    (hutf : ∀ j, validUtf8 ((s.drop (512 * j)).take 512) = true) :
    ∃ fs1, fsFile.append_to_file 1 s = some (Except.ok s.length, fs1)
      ∧ ∃ fs2, fs1.read_file 1 = some (s, fs2) := by
  have hd1 : (fsFile.inode_cache.get_mut 1 fsFile.block_device).1.is_directory = false := by
    decide
  have hd2 : (fsFile.inode_cache.get_mut 1 fsFile.block_device).1.size = 0 := by decide
  have hd3 : (fsFile.inode_cache.get_mut 1 fsFile.block_device).1.blocks = fileBlocks 0 := by
    decide
  obtain ⟨inode2, fs2, hloop, hp1, hp2, hp3, hp4, hp5, hp6, hp7⟩ :=
    append_loop_inv (s.length + 1) s []
      { fsFile with inode_cache := (fsFile.inode_cache.get_mut 1 fsFile.block_device).2 }
      (fsFile.inode_cache.get_mut 1 fsFile.block_device).1
      (by omega) (by decide) (by decide) hd2 hd1 hd3
      (by simp only [List.length_nil, Nat.zero_add, BLOCK_SIZE]; omega)
      (by intro k hk; simp at hk)
  simp only [List.nil_append] at hp1 hp3 hp5 hp7
  simp only [Filesystem.append_to_file, hd1, Bool.false_eq_true, if_false]
  rw [hd2, if_neg (show ¬ 16 * BLOCK_SIZE < 0 + s.length from by
    show ¬ 16 * 512 < 0 + s.length
    omega)]
  rw [hloop]
  refine ⟨_, rfl, ?_⟩
  simp only [Filesystem.read_file]
  have hclen : 1 < fs2.inode_cache.inodes.length := by rw [hp6]; decide
  have hgm : ∀ d, (fs2.inode_cache.put 1 inode2).get_mut 1 d
      = (inode2, { fs2.inode_cache.put 1 inode2 with
          dirty := (fs2.inode_cache.put 1 inode2).dirty.set 1 }) := by
    intro d
    refine get_mut_cached _ 1 inode2 d ?_ ?_
    · show 1 < (fs2.inode_cache.inodes.set 1 (some inode2)).length
      rw [List.length_set]
      exact hclen
    · show (fs2.inode_cache.inodes.set 1 (some inode2)).getD 1 none = some inode2
      rw [List.getD_eq_getElem?_getD, List.getElem?_set_self hclen]
      rfl
  rw [hgm]
  simp only [hp2, Bool.false_eq_true, if_false]
  rw [hp3, fileBlocks_bis _ _ (by omega), hp1,
    read_go_top _ s ((s.length + 511) / 512) hp7 hutf (by omega), Option.map_some']
  exact ⟨_, rfl⟩

set_option maxRecDepth 100000 in
/-- C6 (amended): appending `s1` then `s2` to the fresh file `/f` (inode 1):
if `|s1| + |s2| <= MAX_FILE_SIZE` the second append succeeds and the read
contents are exactly `s1 ++ s2`; otherwise the second append returns
`NoSpaceInFile` before any block write (the device, hence size and on-disk
content, is unchanged) and the contents still read back as `s1` (and
`s1 ≠ s1 ++ s2`).  Every 512-byte chunk of `s1` and of `s1 ++ s2` is assumed
valid UTF-8, else `read_file` panics (see the counterexample theorem). -/
theorem C6_two_appends (s1 s2 : List Nat) (h1 : s1.length ≤ 8192)
    (hutf12 : ∀ j, validUtf8 (((s1 ++ s2).drop (512 * j)).take 512) = true)
    (hutf1 : ∀ j, validUtf8 ((s1.drop (512 * j)).take 512) = true) :
    ∃ fs1, fsFile.append_to_file 1 s1 = some (Except.ok s1.length, fs1)
      ∧ ((s1 ++ s2).length ≤ 8192 →
          ∃ fs2, fs1.append_to_file 1 s2 = some (Except.ok s2.length, fs2)
            ∧ ∃ fs3, fs2.read_file 1 = some (s1 ++ s2, fs3))
      ∧ (8192 < (s1 ++ s2).length →
          s1 ≠ s1 ++ s2
          ∧ ∃ fs2, fs1.append_to_file 1 s2 = some (Except.error Error.NoSpaceInFile, fs2)
            ∧ fs2.block_device = fs1.block_device
            ∧ ∃ fs3, fs2.read_file 1 = some (s1, fs3)) := by
  have hd1 : (fsFile.inode_cache.get_mut 1 fsFile.block_device).1.is_directory = false := by
    decide
  have hd2 : (fsFile.inode_cache.get_mut 1 fsFile.block_device).1.size = 0 := by decide
  have hd3 : (fsFile.inode_cache.get_mut 1 fsFile.block_device).1.blocks = fileBlocks 0 := by
    decide
  obtain ⟨inode2, fs2, hloop, hp1, hp2, hp3, hp4, hp5, hp6, hp7⟩ :=
    append_loop_inv (s1.length + 1) s1 []
      { fsFile with inode_cache := (fsFile.inode_cache.get_mut 1 fsFile.block_device).2 }
      (fsFile.inode_cache.get_mut 1 fsFile.block_device).1
      (by omega) (by decide) (by decide) hd2 hd1 hd3
      (by simp only [List.length_nil, Nat.zero_add, BLOCK_SIZE]; omega)
      (by intro k hk; simp at hk)
  simp only [List.nil_append] at hp1 hp3 hp5 hp7
  simp only [Filesystem.append_to_file, hd1, Bool.false_eq_true, if_false]
  rw [hd2, if_neg (show ¬ 16 * BLOCK_SIZE < 0 + s1.length from by
    show ¬ 16 * 512 < 0 + s1.length
    omega)]
  rw [hloop]
  have hclen : 1 < fs2.inode_cache.inodes.length := by rw [hp6]; decide
  have hgm : ∀ d, (fs2.inode_cache.put 1 inode2).get_mut 1 d
      = (inode2, { fs2.inode_cache.put 1 inode2 with
          dirty := (fs2.inode_cache.put 1 inode2).dirty.set 1 }) := by
    intro d
    refine get_mut_cached _ 1 inode2 d ?_ ?_
    · show 1 < (fs2.inode_cache.inodes.set 1 (some inode2)).length
      rw [List.length_set]
      exact hclen
    · show (fs2.inode_cache.inodes.set 1 (some inode2)).getD 1 none = some inode2
      rw [List.getD_eq_getElem?_getD, List.getElem?_set_self hclen]
      rfl
  refine ⟨_, rfl, ?_, ?_⟩
  · -- the second append still fits
    intro hfit
    rw [List.length_append] at hfit
    obtain ⟨inode3, fs3, hloop2, hq1, hq2, hq3, hq4, hq5, hq6, hq7⟩ :=
      append_loop_inv (s2.length + 1) s2 s1
        { block_device := fs2.block_device, inode_bitmap := fs2.inode_bitmap,
          data_bitmap := fs2.data_bitmap,
          inode_cache := { fs2.inode_cache.put 1 inode2 with
            dirty := (fs2.inode_cache.put 1 inode2).dirty.set 1 },
          layout := fs2.layout }
        inode2
        (by omega) hp4 hp5 hp1 hp2 hp3
        (by simp only [BLOCK_SIZE]; omega) hp7
    simp only [Filesystem.append_to_file]
    rw [hgm]
    simp only [hp2, Bool.false_eq_true, if_false]
    rw [hp1, if_neg (show ¬ 16 * BLOCK_SIZE < s1.length + s2.length from by
      show ¬ 16 * 512 < s1.length + s2.length
      omega)]
    rw [hloop2]
    refine ⟨_, rfl, ?_⟩
    simp only [Filesystem.read_file]
    have hclen3 : 1 < fs3.inode_cache.inodes.length := by
      rw [hq6]
      show 1 < (fs2.inode_cache.inodes.set 1 (some inode2)).length
      rw [List.length_set]
      exact hclen
    have hgm3 : ∀ d, (fs3.inode_cache.put 1 inode3).get_mut 1 d
        = (inode3, { fs3.inode_cache.put 1 inode3 with
            dirty := (fs3.inode_cache.put 1 inode3).dirty.set 1 }) := by
      intro d
      refine get_mut_cached _ 1 inode3 d ?_ ?_
      · show 1 < (fs3.inode_cache.inodes.set 1 (some inode3)).length
        rw [List.length_set]
        exact hclen3
      · show (fs3.inode_cache.inodes.set 1 (some inode3)).getD 1 none = some inode3
        rw [List.getD_eq_getElem?_getD, List.getElem?_set_self hclen3]
        rfl
    rw [hgm3]
    simp only [hq2, Bool.false_eq_true, if_false]
    rw [hq3, fileBlocks_bis _ _ (by rw [List.length_append]; omega), hq1,
      read_go_top _ (s1 ++ s2) (((s1 ++ s2).length + 511) / 512) hq7 hutf12
        (by rw [List.length_append]; omega), Option.map_some']
    exact ⟨_, rfl⟩
  · -- the second append overflows
    intro hbig
    rw [List.length_append] at hbig
    refine ⟨?_, ?_⟩
    · intro he
      have hle := congrArg List.length he
      rw [List.length_append] at hle
      omega
    · simp only [Filesystem.append_to_file]
      rw [hgm]
      simp only [hp2, Bool.false_eq_true, if_false]
      rw [hp1, if_pos (show 16 * BLOCK_SIZE < s1.length + s2.length from by
        show 16 * 512 < s1.length + s2.length
        omega)]
      refine ⟨_, rfl, rfl, ?_⟩
      simp only [Filesystem.read_file]
      have hgmB : ∀ d, ({ fs2.inode_cache.put 1 inode2 with
          dirty := (fs2.inode_cache.put 1 inode2).dirty.set 1 } : INodeCache).get_mut 1 d
          = (inode2, { ({ fs2.inode_cache.put 1 inode2 with
              dirty := (fs2.inode_cache.put 1 inode2).dirty.set 1 } : INodeCache) with
              dirty := ({ fs2.inode_cache.put 1 inode2 with
                dirty := (fs2.inode_cache.put 1 inode2).dirty.set 1 } : INodeCache).dirty.set 1 }) := by
        intro d
        refine get_mut_cached _ 1 inode2 d ?_ ?_
        · show 1 < (fs2.inode_cache.inodes.set 1 (some inode2)).length
          rw [List.length_set]
          exact hclen
        · show (fs2.inode_cache.inodes.set 1 (some inode2)).getD 1 none = some inode2
          rw [List.getD_eq_getElem?_getD, List.getElem?_set_self hclen]
          rfl
      rw [hgmB]
      simp only [hp2, Bool.false_eq_true, if_false]
      rw [hp3, fileBlocks_bis _ _ (by omega), hp1,
        read_go_top _ s1 ((s1.length + 511) / 512) hp7 hutf1 (by omega), Option.map_some']
      exact ⟨_, rfl⟩

theorem set_is_set (b : Bitmap) (i : Nat) (h : i / 32 < b.arr.length) :
    (b.set i).is_set i = true := by
  rw [is_set_eq_testBit]
  show ((b.arr.set (i / 32) (b.arr.getD (i / 32) 0 ||| 1 <<< (i % 32))).getD (i / 32) 0).testBit
    (i % 32) = true
  rw [List.getD_eq_getElem?_getD, List.getElem?_set_self h]
  show (b.arr.getD (i / 32) 0 ||| 1 <<< (i % 32)).testBit (i % 32) = true
  rw [Nat.one_shiftLeft, Nat.testBit_or, Nat.testBit_two_pow_self]
  simp

theorem set_is_set_inv (b : Bitmap) (i j : Nat) (h : (b.set i).is_set j = true) :
    j = i ∨ b.is_set j = true := by
  rw [is_set_eq_testBit] at h
  rw [is_set_eq_testBit]
  by_cases hlen : i / 32 < b.arr.length
  · by_cases hij : j / 32 = i / 32
    · rw [show (b.set i).arr = b.arr.set (i / 32) (b.arr.getD (i / 32) 0 ||| 1 <<< (i % 32))
          from rfl, hij, List.getD_eq_getElem?_getD, List.getElem?_set_self hlen] at h
      rw [show (some (b.arr.getD (i / 32) 0 ||| 1 <<< (i % 32))).getD 0
          = b.arr.getD (i / 32) 0 ||| 1 <<< (i % 32) from rfl] at h
      rw [Nat.one_shiftLeft, Nat.testBit_or] at h
      rcases Bool.or_eq_true_iff.mp h with h1 | h2
      · right
        rw [hij]
        exact h1
      · left
        rw [Nat.testBit_two_pow] at h2
        have : i % 32 = j % 32 := of_decide_eq_true h2
        omega
    · rw [show (b.set i).arr = b.arr.set (i / 32) (b.arr.getD (i / 32) 0 ||| 1 <<< (i % 32))
          from rfl, List.getD_eq_getElem?_getD,
        List.getElem?_set_ne (fun he => hij he.symm), ← List.getD_eq_getElem?_getD] at h
      right
      exact h
  · rw [show (b.set i).arr = b.arr.set (i / 32) (b.arr.getD (i / 32) 0 ||| 1 <<< (i % 32))
        from rfl, List.set_eq_of_length_le (by omega)] at h
    right
    exact h

theorem reserve_dirty (c : INodeCache) (i : Nat) : (c.reserve i).dirty = c.dirty := by
  unfold INodeCache.reserve
  split <;> rfl

theorem reserve_len (c : INodeCache) (i : Nat) : i < (c.reserve i).inodes.length := by
  unfold INodeCache.reserve
  split
  · next hle =>
    simp only [List.length_append, List.length_replicate]
    omega
  · next hle => omega

theorem reserve_getD (c : INodeCache) (i j : Nat) (hj : j < c.inodes.length) :
    (c.reserve i).inodes.getD j none = c.inodes.getD j none := by
  unfold INodeCache.reserve
  split
  · next hle =>
    show (c.inodes ++ List.replicate (i + 1 - c.inodes.length) none).getD j none = _
    rw [List.getD_eq_getElem?_getD, List.getElem?_append_left hj, ← List.getD_eq_getElem?_getD]
  · rfl

theorem get_dirty (c : INodeCache) (i : Nat) (d : Disk) :
    ((c.get i d).2).dirty = c.dirty := by
  unfold INodeCache.get
  dsimp only
  cases hx : (c.reserve i).inodes.getD i none with
  | none =>
    simp only [hx]
    exact reserve_dirty c i
  | some v =>
    simp only [hx]
    exact reserve_dirty c i

theorem get_mut_dirty (c : INodeCache) (i : Nat) (d : Disk) :
    ((c.get_mut i d).2).dirty = (c.dirty).set i := by
  show ((c.get i d).2.dirty).set i = (c.dirty).set i
  rw [get_dirty]

theorem get_inodes_len (c : INodeCache) (i : Nat) (d : Disk) :
    i < ((c.get i d).2).inodes.length := by
  unfold INodeCache.get
  dsimp only
  cases hx : (c.reserve i).inodes.getD i none with
  | none =>
    simp only [hx, List.length_set]
    exact reserve_len c i
  | some v =>
    simp only [hx]
    exact reserve_len c i

theorem get_slot_some (c : INodeCache) (i : Nat) (d : Disk) :
    (((c.get i d).2).inodes.getD i none).isSome = true := by
  unfold INodeCache.get
  dsimp only
  cases hx : (c.reserve i).inodes.getD i none with
  | none =>
    simp only [hx]
    rw [List.getD_eq_getElem?_getD, List.getElem?_set_self (reserve_len c i)]
    rfl
  | some v =>
    simp only [hx]
    rfl

theorem get_slot_mono (c : INodeCache) (i j : Nat) (d : Disk)
    (h : (c.inodes.getD j none).isSome = true) :
    (((c.get i d).2).inodes.getD j none).isSome = true := by
  have hj : j < c.inodes.length := by
    by_contra hle
    rw [List.getD_eq_default _ _ (by omega)] at h
    exact absurd h (by simp)
  unfold INodeCache.get
  dsimp only
  cases hx : (c.reserve i).inodes.getD i none with
  | none =>
    simp only [hx]
    by_cases hij : j = i
    · subst hij
      rw [List.getD_eq_getElem?_getD, List.getElem?_set_self (reserve_len c j)]
      rfl
    · rw [List.getD_eq_getElem?_getD, List.getElem?_set_ne (fun he => hij he.symm),
        ← List.getD_eq_getElem?_getD, reserve_getD c i j hj]
      exact h
  | some v =>
    simp only [hx]
    rw [reserve_getD c i j hj]
    exact h

theorem drain_map_mem (inodes : List (Option INode)) (l : List Nat)
    (hall : ∀ j ∈ l, (inodes.getD j none).isSome = true) :
    ∃ items, drain_map inodes l = some items ∧ items.map Prod.fst = l := by
  induction l with
  | nil => exact ⟨[], rfl, rfl⟩
  | cons a l ih =>
    obtain ⟨items, h1, h2⟩ := ih (fun j hj => hall j (by simp [hj]))
    obtain ⟨ino, hino⟩ := Option.isSome_iff_exists.mp (hall a (by simp))
    refine ⟨(a, ino) :: items, ?_, by simp [h2]⟩
    simp only [drain_map, hino, h1, Option.map_some']

theorem read_file_shape (fs : Filesystem) (idx : Nat) (c : List Nat) (fs' : Filesystem)
    (h : fs.read_file idx = some (c, fs')) :
    fs' = { fs with inode_cache := (fs.inode_cache.get_mut idx fs.block_device).2 } := by
  unfold Filesystem.read_file at h
  dsimp only at h
  split at h
  · exact absurd h (by simp)
  · cases hrg : read_blocks_go fs.block_device
        (((fs.inode_cache.get_mut idx fs.block_device).1.blocks.filter
          (fun b => !b.isNone)).map fs.layout.data_to_block)
        (fs.inode_cache.get_mut idx fs.block_device).1.size with
    | none =>
      rw [hrg] at h
      exact absurd h (by simp)
    | some s =>
      rw [hrg, Option.map_some'] at h
      have := (Option.some.injEq _ _).mp h
      exact (congrArg Prod.snd this).symm

theorem foldl_write_log (items : List (Nat × INode)) :
    ∀ fs : Filesystem,
      (items.foldl (fun fs p => fs.write_inode_to_disk p.1 p.2) fs).block_device.log
          = fs.block_device.log ++ items.map (fun p => (fs.layout.inode_to_block p.1).1)
        ∧ (items.foldl (fun fs p => fs.write_inode_to_disk p.1 p.2) fs).layout = fs.layout := by
  induction items with
  | nil => intro fs; simp
  | cons a items ih =>
    intro fs
    obtain ⟨ih1, ih2⟩ := ih (fs.write_inode_to_disk a.1 a.2)
    rw [List.foldl_cons]
    refine ⟨?_, ih2⟩
    rw [ih1]
    show fs.block_device.log ++ [(fs.layout.inode_to_block a.1).1] ++ _ = _
    rw [List.append_assoc]
    rfl

theorem write_chunks_log_mono (b : Nat) (n : Nat) :
    ∀ (v : List Nat), v.length ≤ n → ∀ (d : Disk) (start : Nat),
      b ∈ d.log → b ∈ (write_chunks d start v).log := by
  induction n with
  | zero =>
    intro v hv d start hb
    rw [write_chunks, dif_pos (List.eq_nil_of_length_eq_zero (by omega))]
    exact hb
  | succ n ih =>
    intro v hv d start hb
    rw [write_chunks]
    split
    · exact hb
    · next hvne =>
      refine ih _ ?_ _ _ (List.mem_append_left _ hb)
      have h1 : v.length ≠ 0 := fun hl => hvne (List.eq_nil_of_length_eq_zero hl)
      simp only [List.length_drop, BLOCK_SIZE]
      omega

theorem write_superblock_log (fs : Filesystem) (sb : SuperBlock) :
    (fs.write_superblock sb).block_device.log = fs.block_device.log ++ [0] := rfl

/-- C10: `read_file` obtains the inode through `INodeCache::get_mut`, so a
successful `read_file idx` marks inode `idx` dirty in the cache, and the next
`flush` (which succeeds whenever every dirty slot is cached) rewrites that
inode's table block `layout.inode_to_block idx` to disk — its block index
appears in the device's write log after the flush. -/
theorem C10_read_marks_dirty (fs : Filesystem) (idx : Nat) (c : List Nat) (fs' : Filesystem)
    (hw : ∀ w ∈ fs.inode_cache.dirty.arr, w < 2 ^ 32)
    (hidx : idx / 32 < fs.inode_cache.dirty.arr.length)
    (hcached : ∀ j, j < 32 * fs.inode_cache.dirty.arr.length →
        fs.inode_cache.dirty.is_set j = true →
        (fs.inode_cache.inodes.getD j none).isSome = true)
    (h : fs.read_file idx = some (c, fs')) :
    fs'.inode_cache.dirty.is_set idx = true
    ∧ ∃ fs'', fs'.flush = some fs''
        ∧ (fs.layout.inode_to_block idx).1 ∈ fs''.block_device.log := by
  have hshape := read_file_shape fs idx c fs' h
  subst hshape
  constructor
  · show ((fs.inode_cache.get_mut idx fs.block_device).2).dirty.is_set idx = true
    rw [get_mut_dirty]
    exact set_is_set _ _ hidx
  · have hdirty2 : ((fs.inode_cache.get_mut idx fs.block_device).2).dirty
        = fs.inode_cache.dirty.set idx := get_mut_dirty _ _ _
    have harrlen : (fs.inode_cache.dirty.set idx).arr.length
        = fs.inode_cache.dirty.arr.length := by
      show (fs.inode_cache.dirty.arr.set _ _).length = _
      rw [List.length_set]
    have hw' : ∀ w ∈ (fs.inode_cache.dirty.set idx).arr, w < 2 ^ 32 := by
      intro w hwmem
      rcases List.mem_or_eq_of_mem_set hwmem with hold | hnew
      · exact hw w hold
      · subst hnew
        refine Nat.or_lt_two_pow ?_ ?_
        · rw [List.getD_eq_getElem?_getD, List.getElem?_eq_getElem hidx]
          exact hw _ (List.getElem_mem hidx)
        · rw [Nat.one_shiftLeft]
          exact Nat.pow_lt_pow_right (by omega) (Nat.mod_lt _ (by omega))
    have hdrain : (((fs.inode_cache.get_mut idx fs.block_device).2).dirty.drain_set).1
        = (List.range (32 * fs.inode_cache.dirty.arr.length)).filter
            (fun i => ((fs.inode_cache.dirty.set idx).arr.getD (i / 32) 0).testBit (i % 32)) := by
      show drain_go 0 ((fs.inode_cache.get_mut idx fs.block_device).2).dirty.arr = _
      rw [hdirty2, drain_go_eq_filter _ 0 hw', harrlen,
        show (fun i : Nat => 0 * 32 + i) = fun i : Nat => i from funext fun i => by omega,
        List.map_id']
    have hmem : idx ∈ (List.range (32 * fs.inode_cache.dirty.arr.length)).filter
        (fun i => ((fs.inode_cache.dirty.set idx).arr.getD (i / 32) 0).testBit (i % 32)) := by
      rw [List.mem_filter]
      constructor
      · rw [List.mem_range]
        omega
      · have hs := set_is_set fs.inode_cache.dirty idx hidx
        rw [is_set_eq_testBit] at hs
        exact hs
    have hall : ∀ j ∈ (List.range (32 * fs.inode_cache.dirty.arr.length)).filter
        (fun i => ((fs.inode_cache.dirty.set idx).arr.getD (i / 32) 0).testBit (i % 32)),
        ((((fs.inode_cache.get_mut idx fs.block_device).2)).inodes.getD j none).isSome
          = true := by
      intro j hj
      rw [List.mem_filter] at hj
      have hisj : (fs.inode_cache.dirty.set idx).is_set j = true := by
        rw [is_set_eq_testBit]
        exact hj.2
      rcases set_is_set_inv _ _ _ hisj with hji | hold
      · subst hji
        show (((fs.inode_cache.get j fs.block_device).2).inodes.getD j none).isSome = true
        exact get_slot_some _ _ _
      · show (((fs.inode_cache.get idx fs.block_device).2).inodes.getD j none).isSome = true
        exact get_slot_mono _ _ _ _ (hcached j (List.mem_range.mp hj.1) hold)
    obtain ⟨items, hitems, hfst⟩ := drain_map_mem _ _ hall
    unfold Filesystem.flush INodeCache.drain
    dsimp only
    rw [hdrain, hitems]
    dsimp only
    refine ⟨_, rfl, ?_⟩
    refine write_chunks_log_mono _ _ _ le_rfl _ _ ?_
    dsimp only
    refine write_chunks_log_mono _ _ _ le_rfl _ _ ?_
    dsimp only
    rw [write_superblock_log]
    refine List.mem_append_left _ ?_
    rw [(foldl_write_log items _).1]
    refine List.mem_append_right _ ?_
    dsimp only
    obtain ⟨p, hp, hpidx⟩ := List.mem_map.mp (by rw [hfst]; exact hmem)
    exact List.mem_map.mpr ⟨p, hp, by rw [hpidx]⟩

/-- A small concrete filesystem (one cached clean inode, empty dirty bitmap)
used to witness the `read_file`/`flush` dirtying behaviour. -/
def fsTiny : Filesystem :=
  { block_device := zeroDisk 2048, inode_bitmap := Bitmap.new 32, data_bitmap := Bitmap.new 32,
    inode_cache := { inodes := [some INode.empty_file], dirty := ⟨32, [0]⟩,
                     layout := some layout2048 },
    layout := layout2048 }

theorem C10_read_marks_dirty_witness :
    ∃ r, fsTiny.read_file 0 = some r
      ∧ r.2.inode_cache.dirty.is_set 0 = true
      ∧ ∃ fs'', r.2.flush = some fs''
        ∧ (fsTiny.layout.inode_to_block 0).1 ∈ fs''.block_device.log := by
  obtain ⟨r, hr⟩ := Option.isSome_iff_exists.mp
    (by decide : (fsTiny.read_file 0).isSome = true)
  obtain ⟨h1, fs'', h2, h3⟩ :=
    C10_read_marks_dirty fsTiny 0 r.1 r.2 (by decide) (by decide) (by decide) (by rw [hr])
  exact ⟨r, hr, h1, fs'', h2, h3⟩

set_option maxRecDepth 100000 in
theorem C3_roundtrip_witness :
    ∃ fs1, fsFile.append_to_file 1 [104, 105] = some (Except.ok 2, fs1)
      ∧ ∃ fs2, fs1.read_file 1 = some ([104, 105], fs2) :=
  C3_roundtrip [104, 105] (by decide)
    (by
      intro j
      match j with
      | 0 => decide
      | j + 1 =>
        rw [List.drop_eq_nil_of_le (by simp; omega)]
        rfl)

set_option maxRecDepth 100000 in
theorem C6_two_appends_witness :
    ∃ fs1, fsFile.append_to_file 1 [104] = some (Except.ok 1, fs1)
      ∧ (([104] ++ [105] : List Nat).length ≤ 8192 →
          ∃ fs2, fs1.append_to_file 1 [105] = some (Except.ok 1, fs2)
            ∧ ∃ fs3, fs2.read_file 1 = some ([104] ++ [105], fs3))
      ∧ (8192 < ([104] ++ [105] : List Nat).length →
          [104] ≠ [104] ++ [105]
          ∧ ∃ fs2, fs1.append_to_file 1 [105]
              = some (Except.error Error.NoSpaceInFile, fs2)
            ∧ fs2.block_device = fs1.block_device
            ∧ ∃ fs3, fs2.read_file 1 = some ([104], fs3)) :=
  C6_two_appends [104] [105] (by decide)
    (by
      intro j
      match j with
      | 0 => decide
      | j + 1 =>
        rw [List.drop_eq_nil_of_le (by simp; omega)]
        rfl)
    (by
      intro j
      match j with
      | 0 => decide
      | j + 1 =>
        rw [List.drop_eq_nil_of_le (by simp; omega)]
        rfl)


/-! ## Heap allocator (src/allocator.rs)

Addresses are `Nat` (the kernel is riscv64: `usize` is 8 bytes, so
`size_of::<AllocationMetaData>() = 16` and, since `Option<AlignedPtr<_>>`
wraps a raw pointer (no niche), `size_of::<FreeBlock>() = 8 + 16 = 24`).
The intrusive free list becomes an explicit list of `(address, size)`
pairs in link order; the metadata written in front of a returned pointer
becomes an explicit record carried on the side (its bytes live inside the
allocated region, disjoint from every free block, so they survive until
`dealloc` reads them back). -/

def META_SIZE : Nat := 16

def FREE_BLOCK_SIZE : Nat := 24

/-- `align_up(addr, align) = (addr + align - 1) & !(align - 1)` with the
complement taken at `usize` (64-bit) width. -/
def align_up (addr align : Nat) : Nat :=
  (addr + align - 1) &&& (2 ^ 64 - align)

/-- `AllocationMetaData` together with the data the allocator handed out:
the returned (aligned) pointer, the rounded request size, and the metadata
`{ start_addr, size }` written in front of the pointer. -/
structure AllocRec where
  uaddr : Nat
  usize : Nat
  start_addr : Nat
  msize : Nat
deriving Repr, DecidableEq

/-- `FreeBlock::can_allocate` for the block at `self_addr` of size
`self_size`. -/
def FreeBlock.can_allocate (self_addr self_size align size : Nat) : Option Nat :=
  let self_end_addr := self_addr + self_size
  let next_possible_addr := self_addr + META_SIZE
  let next_possible_addr_aligned := align_up next_possible_addr (max align 8)
  if next_possible_addr_aligned + size ≤ self_end_addr then some next_possible_addr_aligned
  else none

/-- The `walk_list` closure of `FreeListAllocator::alloc`: first fit, with
the four split cases.  Returns the allocation record and the new free
list. -/
def allocWalk (align size : Nat) : List (Nat × Nat) → Option (AllocRec × List (Nat × Nat))
  | [] => none
  | (B, S) :: rest =>
    match FreeBlock.can_allocate B S align size with
    | none => (allocWalk align size rest).map (fun r => (r.1, (B, S) :: r.2))
    | some U =>
      let required_size := max FREE_BLOCK_SIZE META_SIZE
      let bytes_left := (U - META_SIZE) - B
      let bytes_right := (B + S) - (U + size)
      if required_size ≤ bytes_left then
        if required_size ≤ bytes_right then
          some (⟨U, size, B + bytes_left, S - bytes_left - bytes_right⟩,
            (align_up B 8, bytes_left) :: (align_up (U + size) 8, bytes_right) :: rest)
        else
          some (⟨U, size, B + bytes_left, S - bytes_left⟩, (align_up B 8, bytes_left) :: rest)
      else
        if required_size ≤ bytes_right then
          some (⟨U, size, B, bytes_left + META_SIZE + size⟩,
            (align_up (U + size) 8, bytes_right) :: rest)
        else
          some (⟨U, size, B, S⟩, rest)

/-- `FreeListAllocator::alloc`: clamp the alignment to at least 8, round the
size up to a multiple of 8, then walk first-fit.  `none` = the
`"Out of memory"` panic. -/
def FreeListAllocator.alloc (fl : List (Nat × Nat)) (size0 align0 : Nat) :
    Option (AllocRec × List (Nat × Nat)) :=
  allocWalk (max align0 8) (align_up size0 8) fl

/-- The insertion walk of `FreeListAllocator::dealloc`: `prev` is the last
block whose successor's address is not below `start`; the four merge
cases. -/
def deallocWalk (NB start msize : Nat) : Nat × Nat → List (Nat × Nat) → List (Nat × Nat)
  | (pa, ps), [] =>
    if pa + ps = start then [(pa, ps + msize)]
    else [(pa, ps), (NB, msize)]
  | (pa, ps), (na, ns) :: rest =>
    if na < start then (pa, ps) :: deallocWalk NB start msize (na, ns) rest
    else
      if pa + ps = start then
        if start + msize = na then (pa, ps + msize + ns) :: rest
        else (pa, ps + msize) :: (na, ns) :: rest
      else
        if start + msize = na then (pa, ps) :: (NB, msize + ns) :: rest
        else (pa, ps) :: (NB, msize) :: (na, ns) :: rest

/-- `FreeListAllocator::dealloc`: recover `(size, start_addr)` from the
metadata in front of the pointer, build a free block at `start_addr`, and
insert / coalesce it into the address-ordered list. -/
def FreeListAllocator.dealloc (fl : List (Nat × Nat)) (rec : AllocRec) : List (Nat × Nat) :=
  let NB := align_up rec.start_addr 8
  match fl with
  | [] => [(NB, rec.msize)]
  | (ha, hs) :: rest =>
    if rec.start_addr < ha then
      if rec.start_addr + rec.msize = ha then (NB, rec.msize + hs) :: rest
      else (NB, rec.msize) :: (ha, hs) :: rest
    else deallocWalk NB rec.start_addr rec.msize (ha, hs) rest

/-- `FreeListAllocator::free`: total free bytes (sum of block sizes). -/
def FreeListAllocator.free (fl : List (Nat × Nat)) : Nat := (fl.map Prod.snd).sum

/-- `FreeListAllocator::free_blocks`: length of the free list. -/
def FreeListAllocator.free_blocks (fl : List (Nat × Nat)) : Nat := fl.length

/-- `FreeListAllocator::init`: one block at `align_up(heap_start, 8)` of
size `heap_size - size_of::<FreeBlock>()`. -/
def FreeListAllocator.init (heap_start heap_end : Nat) : List (Nat × Nat) :=
  [(align_up heap_start 8, (heap_end - heap_start) - FREE_BLOCK_SIZE)]

/-- Run a list of `(size, align)` requests, collecting the records in
order. -/
def runAllocs (fl : List (Nat × Nat)) : List (Nat × Nat) →
    Option (List (Nat × Nat) × List AllocRec)
  | [] => some (fl, [])
  | (size0, align0) :: reqs =>
    match FreeListAllocator.alloc fl size0 align0 with
    | none => none
    | some (rec, fl2) => (runAllocs fl2 reqs).map (fun r => (r.1, rec :: r.2))

/-- Deallocate a list of records in the given order. -/
def runDeallocs (fl : List (Nat × Nat)) (recs : List AllocRec) : List (Nat × Nat) :=
  recs.foldl FreeListAllocator.dealloc fl

/-! ### align_up arithmetic -/

theorem align_up_eq (addr k : Nat) (h : addr + 2 ^ k ≤ 2 ^ 64) :
    align_up addr (2 ^ k) = (addr + 2 ^ k - 1) - ((addr + 2 ^ k - 1) % 2 ^ k) := by
  have hk64 : k ≤ 64 := by
    by_contra hk
    have : 2 ^ 65 ≤ 2 ^ k := Nat.pow_le_pow_right (by omega) (by omega)
    have : (2 : Nat) ^ 64 < 2 ^ 65 := by norm_num
    omega
  unfold align_up
  set x := addr + 2 ^ k - 1 with hx
  have hxlt : x < 2 ^ 64 := by
    have : (0 : Nat) < 2 ^ k := Nat.pos_pow_of_pos _ (by omega)
    omega
  have hmask : 2 ^ 64 - 2 ^ k = (2 ^ (64 - k) - 1) <<< k := by
    rw [Nat.shiftLeft_eq, Nat.sub_mul, one_mul, ← Nat.pow_add]
    congr 2
    omega
  have hrhs : x - x % 2 ^ k = (x >>> k) <<< k := by
    rw [Nat.shiftRight_eq_div_pow, Nat.shiftLeft_eq]
    have h1 := Nat.div_add_mod x (2 ^ k)
    have h2 : 2 ^ k * (x / 2 ^ k) = x / 2 ^ k * 2 ^ k := Nat.mul_comm _ _
    omega
  rw [hmask, hrhs]
  apply Nat.eq_of_testBit_eq
  intro i
  rw [Nat.testBit_and, Nat.testBit_shiftLeft, Nat.testBit_shiftLeft,
    Nat.testBit_shiftRight]
  by_cases hki : k ≤ i
  · by_cases hi64 : i < 64
    · simp [hki, Nat.testBit_two_pow_sub_one, Nat.add_sub_cancel' hki,
        show i - k < 64 - k by omega]
    · have hxf : x.testBit i = false :=
        Nat.testBit_lt_two_pow (lt_of_lt_of_le hxlt (Nat.pow_le_pow_right (by omega) (by omega)))
      simp [show k + (i - k) = i from by omega, hxf]
  · simp [hki]

theorem align_up_ge (addr k : Nat) (h : addr + 2 ^ k ≤ 2 ^ 64) :
    addr ≤ align_up addr (2 ^ k) := by
  rw [align_up_eq addr k h]
  have hp : (0 : Nat) < 2 ^ k := Nat.pos_pow_of_pos _ (by omega)
  have := Nat.mod_lt (addr + 2 ^ k - 1) hp
  omega

theorem align_up_lt (addr k : Nat) (h : addr + 2 ^ k ≤ 2 ^ 64) :
    align_up addr (2 ^ k) < addr + 2 ^ k := by
  rw [align_up_eq addr k h]
  have hp : (0 : Nat) < 2 ^ k := Nat.pos_pow_of_pos _ (by omega)
  omega

theorem align_up_mod (addr k : Nat) (h : addr + 2 ^ k ≤ 2 ^ 64) :
    align_up addr (2 ^ k) % 2 ^ k = 0 := by
  rw [align_up_eq addr k h]
  have := Nat.div_add_mod (addr + 2 ^ k - 1) (2 ^ k)
  have h2 : addr + 2 ^ k - 1 - (addr + 2 ^ k - 1) % 2 ^ k = 2 ^ k * ((addr + 2 ^ k - 1) / 2 ^ k) := by
    omega
  rw [h2, Nat.mul_mod_right]

theorem align_up_of_mod (addr k : Nat) (h : addr + 2 ^ k ≤ 2 ^ 64)
    (ha : addr % 2 ^ k = 0) : align_up addr (2 ^ k) = addr := by
  have h1 := align_up_ge addr k h
  have h2 := align_up_lt addr k h
  have h3 := align_up_mod addr k h
  have hd1 : 2 ^ k ∣ align_up addr (2 ^ k) := Nat.dvd_of_mod_eq_zero h3
  have hd2 : 2 ^ k ∣ addr := Nat.dvd_of_mod_eq_zero ha
  have hd : 2 ^ k ∣ align_up addr (2 ^ k) - addr := Nat.dvd_sub' hd1 hd2
  have : align_up addr (2 ^ k) - addr = 0 :=
    Nat.eq_zero_of_dvd_of_lt hd (by omega) |>.symm ▸ rfl
  omega

theorem align_up8_of_mod (addr : Nat) (h : addr ≤ 2 ^ 63) (ha : addr % 8 = 0) :
    align_up addr 8 = addr := by
  have := align_up_of_mod addr 3 (by norm_num; omega) (by norm_num; exact ha)
  simpa using this

theorem max_pow2 (k : Nat) : max (2 ^ k) 8 = 2 ^ max k 3 := by
  rcases le_total k 3 with hk | hk
  · rw [Nat.max_eq_right (Nat.pow_le_pow_right (by omega) hk), Nat.max_eq_right hk]
  · rw [Nat.max_eq_left (Nat.pow_le_pow_right (by omega) hk), Nat.max_eq_left hk]

/-- The address-gap order on free blocks: strictly ascending and
non-adjacent. -/
def gap (p q : Nat × Nat) : Prop := p.1 + p.2 < q.1

/-- Does the region `p = (addr, size)` contain the byte `x`? -/
def covers (p : Nat × Nat) (x : Nat) : Bool := decide (p.1 ≤ x ∧ x < p.1 + p.2)

theorem allocWalk_decomp (align size : Nat) :
    ∀ (fl fl' : List (Nat × Nat)) (rec : AllocRec),
    allocWalk align size fl = some (rec, fl') →
    ∃ xs B S rest U,
      fl = xs ++ (B, S) :: rest
      ∧ FreeBlock.can_allocate B S align size = some U
      ∧ rec.uaddr = U ∧ rec.usize = size
      ∧ (let R := max FREE_BLOCK_SIZE META_SIZE
         let bl := (U - META_SIZE) - B
         let br := (B + S) - (U + size)
         (¬ R ≤ bl ∧ ¬ R ≤ br ∧ rec.start_addr = B ∧ rec.msize = S ∧ fl' = xs ++ rest)
         ∨ (R ≤ bl ∧ ¬ R ≤ br ∧ rec.start_addr = B + bl ∧ rec.msize = S - bl
            ∧ fl' = xs ++ (align_up B 8, bl) :: rest)
         ∨ (¬ R ≤ bl ∧ R ≤ br ∧ rec.start_addr = B ∧ rec.msize = bl + META_SIZE + size
            ∧ fl' = xs ++ (align_up (U + size) 8, br) :: rest)
         ∨ (R ≤ bl ∧ R ≤ br ∧ rec.start_addr = B + bl ∧ rec.msize = S - bl - br
            ∧ fl' = xs ++ (align_up B 8, bl) :: (align_up (U + size) 8, br) :: rest)) := by
  intro fl
  induction fl with
  | nil =>
    intro fl' rec h
    exact absurd h (by simp [allocWalk])
  | cons p fl ih =>
    intro fl' rec h
    obtain ⟨B0, S0⟩ := p
    rw [allocWalk] at h
    cases hc : FreeBlock.can_allocate B0 S0 align size with
    | none =>
      rw [hc] at h
      cases hw : allocWalk align size fl with
      | none =>
        rw [hw] at h
        exact absurd h (by simp)
      | some r =>
        obtain ⟨rec2, fl2⟩ := r
        rw [hw, Option.map_some', Option.some.injEq, Prod.mk.injEq] at h
        obtain ⟨hrec, hfl⟩ := h
        obtain ⟨xs, B, S, rest, U, g1, g2, g3, g4, g5⟩ := ih fl2 rec2 hw
        subst hrec
        refine ⟨(B0, S0) :: xs, B, S, rest, U, by rw [g1]; rfl, g2, g3, g4, ?_⟩
        simp only at g5 ⊢
        rcases g5 with ⟨a1, a2, a3, a4, a5⟩ | ⟨a1, a2, a3, a4, a5⟩ |
          ⟨a1, a2, a3, a4, a5⟩ | ⟨a1, a2, a3, a4, a5⟩
        · exact Or.inl ⟨a1, a2, a3, a4, by rw [← hfl, a5]; rfl⟩
        · exact Or.inr (Or.inl ⟨a1, a2, a3, a4, by rw [← hfl, a5]; rfl⟩)
        · exact Or.inr (Or.inr (Or.inl ⟨a1, a2, a3, a4, by rw [← hfl, a5]; rfl⟩))
        · exact Or.inr (Or.inr (Or.inr ⟨a1, a2, a3, a4, by rw [← hfl, a5]; rfl⟩))
    | some U =>
      rw [hc] at h
      simp only at h
      split_ifs at h with hbl hbr hbr
      · rw [Option.some.injEq, Prod.mk.injEq] at h
        obtain ⟨hrec, hfl⟩ := h
        subst hrec
        subst hfl
        refine ⟨[], B0, S0, fl, U, rfl, hc, rfl, rfl, ?_⟩
        simp only
        exact Or.inr (Or.inr (Or.inr ⟨hbl, hbr, trivial, trivial, by simp⟩))
      · rw [Option.some.injEq, Prod.mk.injEq] at h
        obtain ⟨hrec, hfl⟩ := h
        subst hrec
        subst hfl
        refine ⟨[], B0, S0, fl, U, rfl, hc, rfl, rfl, ?_⟩
        simp only
        exact Or.inr (Or.inl ⟨hbl, hbr, trivial, trivial, by simp⟩)
      · rw [Option.some.injEq, Prod.mk.injEq] at h
        obtain ⟨hrec, hfl⟩ := h
        subst hrec
        subst hfl
        refine ⟨[], B0, S0, fl, U, rfl, hc, rfl, rfl, ?_⟩
        simp only
        exact Or.inr (Or.inr (Or.inl ⟨hbl, hbr, trivial, trivial, by simp⟩))
      · rw [Option.some.injEq, Prod.mk.injEq] at h
        obtain ⟨hrec, hfl⟩ := h
        subst hrec
        subst hfl
        refine ⟨[], B0, S0, fl, U, rfl, hc, rfl, rfl, ?_⟩
        simp only
        exact Or.inl ⟨hbl, hbr, trivial, trivial, by simp⟩

/-- A free block lies in the managed range, is 8-aligned with 8-aligned
nonzero size. -/
def blockOK (W T : Nat) (p : Nat × Nat) : Prop :=
  W ≤ p.1 ∧ p.1 + p.2 ≤ W + T ∧ p.1 % 8 = 0 ∧ p.2 % 8 = 0 ∧ 0 < p.2

/-- A live allocation record: its metadata region lies in the managed
range, is 8-aligned with 8-aligned size, the metadata slot sits right below
the returned pointer and the user range fits inside the region. -/
def recOK (W T : Nat) (r : AllocRec) : Prop :=
  W ≤ r.start_addr ∧ r.start_addr + r.msize ≤ W + T
  ∧ r.start_addr % 8 = 0 ∧ r.msize % 8 = 0
  ∧ r.start_addr + META_SIZE ≤ r.uaddr ∧ r.uaddr + r.usize ≤ r.start_addr + r.msize

/-- The allocator invariant over the managed byte range `[W, W + T)`: the
free list is address-sorted with no two blocks adjacent, every free block
and live region is well-formed, and every managed byte belongs to exactly
one free block or live region. -/
structure Inv (W T : Nat) (fl : List (Nat × Nat)) (live : List AllocRec) : Prop where
  bound : W + T ≤ 2 ^ 62
  chain : List.Pairwise gap fl
  blocks : ∀ p ∈ fl, blockOK W T p
  lives : ∀ r ∈ live, recOK W T r
  cover : ∀ x, W ≤ x → x < W + T →
    fl.countP (fun p => covers p x)
      + live.countP (fun r => covers (r.start_addr, r.msize) x) = 1

theorem Inv.block_rec_disjoint {W T fl live} (hinv : Inv W T fl live)
    {p : Nat × Nat} {r : AllocRec} (hp : p ∈ fl) (hr : r ∈ live) :
    p.1 + p.2 ≤ r.start_addr ∨ r.start_addr + r.msize ≤ p.1 := by
  by_contra hcon
  push_neg at hcon
  obtain ⟨h1, h2⟩ := hcon
  have hbp := hinv.blocks p hp
  have hbr := hinv.lives r hr
  set x := max p.1 r.start_addr with hx
  have hxp : covers p x = true := by
    simp only [covers, decide_eq_true_eq]
    unfold blockOK at hbp
    unfold recOK at hbr
    simp only [META_SIZE] at hbr
    omega
  have hxr : covers (r.start_addr, r.msize) x = true := by
    simp only [covers, decide_eq_true_eq]
    unfold blockOK at hbp
    unfold recOK at hbr
    simp only [META_SIZE] at hbr
    omega
  have hc1 : 0 < fl.countP (fun p => covers p x) :=
    List.countP_pos.mpr ⟨p, hp, hxp⟩
  have hc2 : 0 < live.countP (fun r => covers (r.start_addr, r.msize) x) :=
    List.countP_pos.mpr ⟨r, hr, hxr⟩
  unfold blockOK at hbp
  unfold recOK at hbr
  have := hinv.cover x (by omega) (by omega)
  omega

theorem Inv_rebuild (W T : Nat) (xs rest : List (Nat × Nat)) (live : List AllocRec)
    (B S : Nat) (NEW : List (Nat × Nat)) (rec : AllocRec)
    (hinv : Inv W T (xs ++ (B, S) :: rest) live)
    (hpw : List.Pairwise gap NEW)
    (hbnd : ∀ p ∈ NEW, B ≤ p.1 ∧ p.1 + p.2 ≤ B + S)
    (hok : ∀ p ∈ NEW, blockOK W T p)
    (hrec : recOK W T rec)
    (htile : ∀ x, NEW.countP (fun p => covers p x)
        + (if covers (rec.start_addr, rec.msize) x = true then 1 else 0)
        = (if covers (B, S) x = true then 1 else 0))
    (hsum : (NEW.map Prod.snd).sum + rec.msize = S) :
    Inv W T (xs ++ (NEW ++ rest)) (rec :: live)
    ∧ FreeListAllocator.free (xs ++ (NEW ++ rest)) + rec.msize
      = FreeListAllocator.free (xs ++ (B, S) :: rest) := by
  have hch := hinv.chain
  rw [List.pairwise_append] at hch
  obtain ⟨pxs, pcons, hlink⟩ := hch
  rw [List.pairwise_cons] at pcons
  obtain ⟨hBrest, prest⟩ := pcons
  constructor
  · refine ⟨hinv.bound, ?_, ?_, ?_, ?_⟩
    · rw [List.pairwise_append]
      refine ⟨pxs, ?_, ?_⟩
      · rw [List.pairwise_append]
        refine ⟨hpw, prest, ?_⟩
        intro a ha b hb
        have h1 := (hbnd a ha).2
        have h2 := hBrest b hb
        unfold gap at *
        omega
      · intro a ha b hb
        have hab := hlink a ha
        rcases List.mem_append.mp hb with hb | hb
        · have h1 := (hbnd b hb).1
          have h2 := hab (B, S) (by simp)
          unfold gap at *
          omega
        · exact hab b (by simp [hb])
    · intro p hp
      rcases List.mem_append.mp hp with hp | hp
      · exact hinv.blocks p (by rw [List.mem_append]; exact Or.inl hp)
      · rcases List.mem_append.mp hp with hp | hp
        · exact hok p hp
        · exact hinv.blocks p (by simp [hp])
    · intro r hr
      rcases List.mem_cons.mp hr with hr | hr
      · exact hr ▸ hrec
      · exact hinv.lives r hr
    · intro x hx1 hx2
      have hc := hinv.cover x hx1 hx2
      rw [List.countP_append, List.countP_cons] at hc
      rw [List.countP_append, List.countP_append, List.countP_cons]
      have ht := htile x
      omega
  · unfold FreeListAllocator.free
    simp only [List.map_append, List.sum_append, List.map_cons, List.sum_cons]
    omega

theorem alloc_preserves (W T : Nat) (fl : List (Nat × Nat)) (live : List AllocRec)
    (size0 align0 k : Nat) (rec : AllocRec) (fl' : List (Nat × Nat))
    (hinv : Inv W T fl live)
    (hal : align0 = 2 ^ k) (hal2 : align0 ≤ 2 ^ 32) (hsz : size0 ≤ 2 ^ 32)
    (h : FreeListAllocator.alloc fl size0 align0 = some (rec, fl')) :
    Inv W T fl' (rec :: live)
    ∧ FreeListAllocator.free fl' + rec.msize = FreeListAllocator.free fl
    ∧ rec.uaddr % max align0 8 = 0
    ∧ rec.usize = align_up size0 8 := by
  unfold FreeListAllocator.alloc at h
  -- the rounded size
  have hsize_eq : align_up size0 8 = align_up size0 (2 ^ 3) := by norm_num
  have hsz_ge : size0 ≤ align_up size0 8 := by
    rw [hsize_eq]
    exact align_up_ge _ _ (by norm_num; omega)
  have hsz_lt : align_up size0 8 < size0 + 8 := by
    rw [hsize_eq]
    have := align_up_lt size0 3 (by norm_num; omega)
    omega
  have hsz8 : align_up size0 8 % 8 = 0 := by
    rw [hsize_eq]
    have := align_up_mod size0 3 (by norm_num; omega)
    simpa using this
  -- the clamped alignment
  have halmax : max align0 8 = 2 ^ max k 3 := by rw [hal, max_pow2]
  have hal_le : max align0 8 ≤ 2 ^ 32 + 8 := by omega
  have hal_ge : 8 ≤ max align0 8 := le_max_right _ _
  obtain ⟨xs, B, S, rest, U, h1, h2, h3, h4, h5⟩ := allocWalk_decomp _ _ fl fl' rec h
  have hBmem : (B, S) ∈ fl := by
    rw [h1]
    exact List.mem_append_right _ (by simp)
  have hBok := hinv.blocks (B, S) hBmem
  unfold blockOK at hBok
  simp only at hBok
  obtain ⟨hBW, hBend, hB8, hS8, hSpos⟩ := hBok
  -- unpack can_allocate
  unfold FreeBlock.can_allocate at h2
  rw [show max (max align0 8) 8 = max align0 8 from Nat.max_eq_left hal_ge] at h2
  simp only at h2
  split_ifs at h2 with hfit
  rw [Option.some.injEq] at h2
  simp only [META_SIZE] at h2 hfit
  have hUb : (B + 16) + 2 ^ (k ⊔ 3) ≤ 2 ^ 64 := by
    have h62 := hinv.bound
    have : (2 : Nat) ^ (k ⊔ 3) = align0 ⊔ 8 := halmax.symm
    omega
  have hUge : B + 16 ≤ U := by
    rw [← h2, halmax]
    exact align_up_ge _ _ hUb
  have hUmod : U % (align0 ⊔ 8) = 0 := by
    rw [← h2, halmax]
    exact align_up_mod _ _ hUb
  have hdvd8 : (8 : Nat) ∣ align0 ⊔ 8 := by
    rw [halmax]
    exact (show ((2 : Nat) ^ 3 ∣ 2 ^ (k ⊔ 3)) from pow_dvd_pow 2 (by omega))
  have hU8 : U % 8 = 0 := by
    rw [← Nat.mod_mod_of_dvd U hdvd8, hUmod]
  have h62 := hinv.bound
  have haB : align_up B 8 = B := align_up8_of_mod B (by omega) hB8
  have haR : align_up (U + align_up size0 8) 8 = U + align_up size0 8 :=
    align_up8_of_mod _ (by omega) (by omega)
  rw [show ((FREE_BLOCK_SIZE : Nat) ⊔ META_SIZE) = 24 from by
    simp [FREE_BLOCK_SIZE, META_SIZE]] at h5
  simp only [META_SIZE] at h5
  subst h1
  rcases h5 with ⟨c1, c2, c3, c4, c5⟩ | ⟨c1, c2, c3, c4, c5⟩ |
    ⟨c1, c2, c3, c4, c5⟩ | ⟨c1, c2, c3, c4, c5⟩
  · -- no split on either side
    subst c5
    have hres := Inv_rebuild W T xs rest live B S [] rec hinv (by simp) (by simp) (by simp)
      (by
        unfold recOK
        simp only [META_SIZE]
        omega)
      (by
        intro x
        simp only [List.countP_nil, covers, decide_eq_true_eq, c3, c4]
        omega)
      (by simp [c4])
    exact ⟨hres.1, hres.2, h3 ▸ hUmod, h4⟩
  · -- split left only
    subst c5
    rw [haB]
    have hres := Inv_rebuild W T xs rest live B S [(B, U - 16 - B)] rec hinv
      (by simp) (by intro p hp; simp at hp; subst hp; simp; omega)
      (by
        intro p hp
        simp at hp
        subst hp
        unfold blockOK
        simp only
        omega)
      (by
        unfold recOK
        simp only [META_SIZE]
        omega)
      (by
        intro x
        simp only [List.countP_cons, List.countP_nil, covers, decide_eq_true_eq, c3, c4]
        split_ifs <;> omega)
      (by simp [c4]; omega)
    exact ⟨hres.1, hres.2, h3 ▸ hUmod, h4⟩
  · -- split right only
    subst c5
    rw [haR]
    have hres := Inv_rebuild W T xs rest live B S
      [(U + align_up size0 8, B + S - (U + align_up size0 8))] rec hinv
      (by simp) (by intro p hp; simp at hp; subst hp; simp; omega)
      (by
        intro p hp
        simp at hp
        subst hp
        unfold blockOK
        simp only
        omega)
      (by
        unfold recOK
        simp only [META_SIZE]
        omega)
      (by
        intro x
        simp only [List.countP_cons, List.countP_nil, covers, decide_eq_true_eq, c3, c4]
        split_ifs <;> omega)
      (by simp [c4]; omega)
    exact ⟨hres.1, hres.2, h3 ▸ hUmod, h4⟩
  · -- split both sides
    subst c5
    rw [haB, haR]
    have hres := Inv_rebuild W T xs rest live B S
      [(B, U - 16 - B), (U + align_up size0 8, B + S - (U + align_up size0 8))] rec hinv
      (by
        constructor
        · intro b hb
          simp at hb
          subst hb
          unfold gap
          simp only
          omega
        · simp)
      (by
        intro p hp
        simp at hp
        rcases hp with hp | hp <;> subst hp <;> simp <;> omega)
      (by
        intro p hp
        simp at hp
        rcases hp with hp | hp <;> subst hp <;> (unfold blockOK; simp only) <;> omega)
      (by
        unfold recOK
        simp only [META_SIZE]
        omega)
      (by
        intro x
        simp only [List.countP_cons, List.countP_nil, covers, decide_eq_true_eq, c3, c4]
        split_ifs <;> omega)
      (by simp [c4]; omega)
    exact ⟨hres.1, hres.2, h3 ▸ hUmod, h4⟩

theorem deallocWalk_spec (W T st ms : Nat) (hst8 : st % 8 = 0) (hms8 : ms % 8 = 0)
    (hmsp : 0 < ms) (hwst : W ≤ st) (hend : st + ms ≤ W + T) :
    ∀ (rest : List (Nat × Nat)) (pa ps : Nat),
    List.Pairwise gap ((pa, ps) :: rest) →
    (∀ p ∈ (pa, ps) :: rest, blockOK W T p) →
    (∀ p ∈ (pa, ps) :: rest, p.1 + p.2 ≤ st ∨ st + ms ≤ p.1) →
    pa < st →
    ∃ ps2 tail, deallocWalk st st ms (pa, ps) rest = (pa, ps2) :: tail
      ∧ List.Pairwise gap ((pa, ps2) :: tail)
      ∧ (∀ p ∈ (pa, ps2) :: tail, blockOK W T p)
      ∧ (∀ p ∈ (pa, ps2) :: tail, pa ≤ p.1)
      ∧ (∀ x, ((pa, ps2) :: tail).countP (fun p => covers p x)
          = ((pa, ps) :: rest).countP (fun p => covers p x)
            + (if covers (st, ms) x = true then 1 else 0))
      ∧ (((pa, ps2) :: tail).map Prod.snd).sum = ps + (rest.map Prod.snd).sum + ms := by
  intro rest
  induction rest with
  | nil =>
    intro pa ps hpw hok hdis hpa
    have hps := hok (pa, ps) (by simp)
    unfold blockOK at hps
    simp only at hps
    have hd := hdis (pa, ps) (by simp)
    simp only at hd
    have hple : pa + ps ≤ st := by omega
    rw [deallocWalk]
    by_cases hm : pa + ps = st
    · rw [if_pos hm]
      refine ⟨ps + ms, [], rfl, by simp, ?_, by simp, ?_, by simp⟩
      · intro p hp
        simp at hp
        subst hp
        unfold blockOK
        simp only
        omega
      · intro x
        simp only [List.countP_cons, List.countP_nil, covers, decide_eq_true_eq]
        split_ifs <;> omega
    · rw [if_neg hm]
      refine ⟨ps, [(st, ms)], rfl, ?_, ?_, ?_, ?_, by simp⟩
      · constructor
        · intro b hb
          simp at hb
          subst hb
          unfold gap
          simp only
          omega
        · simp
      · intro p hp
        simp at hp
        rcases hp with hp | hp <;> subst hp
        · exact hok (pa, ps) (by simp)
        · unfold blockOK
          simp only
          omega
      · intro p hp
        simp at hp
        rcases hp with hp | hp <;> subst hp <;> simp <;> omega
      · intro x
        simp only [List.countP_cons, List.countP_nil, covers, decide_eq_true_eq]
        split_ifs <;> omega
  | cons q rest ih =>
    obtain ⟨na, ns⟩ := q
    intro pa ps hpw hok hdis hpa
    have hps := hok (pa, ps) (by simp)
    unfold blockOK at hps
    simp only at hps
    have hns := hok (na, ns) (by simp)
    unfold blockOK at hns
    simp only at hns
    have hdp := hdis (pa, ps) (by simp)
    simp only at hdp
    have hdn := hdis (na, ns) (by simp)
    simp only at hdn
    have hple : pa + ps ≤ st := by omega
    have hgapn : pa + ps < na := by
      have := (List.pairwise_cons.mp hpw).1 (na, ns) (by simp)
      unfold gap at this
      exact this
    rw [deallocWalk]
    by_cases hna : na < st
    · rw [if_pos hna]
      obtain ⟨ps2, tail, e1, e2, e3, e4, e5, e6⟩ := ih na ns
        (List.pairwise_cons.mp hpw).2
        (fun p hp => hok p (by simp at hp ⊢; tauto))
        (fun p hp => hdis p (by simp at hp ⊢; tauto))
        hna
      rw [e1]
      refine ⟨ps, (na, ps2) :: tail, rfl, ?_, ?_, ?_, ?_, ?_⟩
      · rw [List.pairwise_cons]
        refine ⟨?_, e2⟩
        intro b hb
        have := e4 b hb
        unfold gap
        omega
      · intro p hp
        rcases List.mem_cons.mp hp with hp | hp
        · subst hp
          exact hok (pa, ps) (by simp)
        · exact e3 p hp
      · intro p hp
        rcases List.mem_cons.mp hp with hp | hp
        · subst hp
          simp
        · have := e4 p hp
          omega
      · intro x
        have := e5 x
        simp only [List.countP_cons] at this ⊢
        omega
      · simp only [List.map_cons, List.sum_cons] at e6 ⊢
        omega
    · rw [if_neg hna]
      have hstna : st < na := by
        rcases hdn with hd1 | hd1 <;> omega
      have hmsna : st + ms ≤ na := by
        rcases hdn with hd1 | hd1 <;> omega
      have hrest_gap := (List.pairwise_cons.mp hpw).1
      have hpw2 := (List.pairwise_cons.mp hpw).2
      have hnagap := (List.pairwise_cons.mp hpw2).1
      by_cases hml : pa + ps = st
      · rw [if_pos hml]
        by_cases hmr : st + ms = na
        · rw [if_pos hmr]
          refine ⟨ps + ms + ns, rest, rfl, ?_, ?_, ?_, ?_, by simp; omega⟩
          · rw [List.pairwise_cons]
            refine ⟨?_, (List.pairwise_cons.mp hpw2).2⟩
            intro b hb
            have := hnagap b hb
            unfold gap at *
            omega
          · intro p hp
            rcases List.mem_cons.mp hp with hp | hp
            · subst hp
              unfold blockOK
              simp only
              omega
            · exact hok p (by simp [hp])
          · intro p hp
            rcases List.mem_cons.mp hp with hp | hp
            · subst hp
              simp
            · have := hnagap p hp
              unfold gap at this
              omega
          · intro x
            simp only [List.countP_cons, covers, decide_eq_true_eq]
            split_ifs <;> omega
        · rw [if_neg hmr]
          refine ⟨ps + ms, (na, ns) :: rest, rfl, ?_, ?_, ?_, ?_, by simp; omega⟩
          · rw [List.pairwise_cons]
            refine ⟨?_, hpw2⟩
            intro b hb
            rcases List.mem_cons.mp hb with hb | hb
            · subst hb
              unfold gap
              simp only
              omega
            · have := hnagap b hb
              unfold gap at *
              omega
          · intro p hp
            rcases List.mem_cons.mp hp with hp | hp
            · subst hp
              unfold blockOK
              simp only
              omega
            · exact hok p (by simp at hp ⊢; tauto)
          · intro p hp
            rcases List.mem_cons.mp hp with hp | hp
            · subst hp
              simp
            · rcases List.mem_cons.mp hp with hp | hp
              · subst hp
                simp
                omega
              · have := hnagap p hp
                unfold gap at this
                omega
          · intro x
            simp only [List.countP_cons, covers, decide_eq_true_eq]
            split_ifs <;> omega
      · rw [if_neg hml]
        have hml' : pa + ps < st := by omega
        by_cases hmr : st + ms = na
        · rw [if_pos hmr]
          refine ⟨ps, (st, ms + ns) :: rest, rfl, ?_, ?_, ?_, ?_, by simp; omega⟩
          · rw [List.pairwise_cons]
            constructor
            · intro b hb
              rcases List.mem_cons.mp hb with hb | hb
              · subst hb
                unfold gap
                simp only
                omega
              · have := hnagap b hb
                unfold gap at *
                omega
            · rw [List.pairwise_cons]
              refine ⟨?_, (List.pairwise_cons.mp hpw2).2⟩
              intro b hb
              have := hnagap b hb
              unfold gap at *
              omega
          · intro p hp
            rcases List.mem_cons.mp hp with hp | hp
            · subst hp
              exact hok (pa, ps) (by simp)
            · rcases List.mem_cons.mp hp with hp | hp
              · subst hp
                unfold blockOK
                simp only
                omega
              · exact hok p (by simp [hp])
          · intro p hp
            rcases List.mem_cons.mp hp with hp | hp
            · subst hp
              simp
            · rcases List.mem_cons.mp hp with hp | hp
              · subst hp
                simp
                omega
              · have := hnagap p hp
                unfold gap at this
                omega
          · intro x
            simp only [List.countP_cons, covers, decide_eq_true_eq]
            split_ifs <;> omega
        · rw [if_neg hmr]
          refine ⟨ps, (st, ms) :: (na, ns) :: rest, rfl, ?_, ?_, ?_, ?_, by simp; omega⟩
          · rw [List.pairwise_cons]
            constructor
            · intro b hb
              rcases List.mem_cons.mp hb with hb | hb
              · subst hb
                unfold gap
                simp only
                omega
              · rcases List.mem_cons.mp hb with hb | hb
                · subst hb
                  unfold gap
                  simp only
                  omega
                · have := hnagap b hb
                  unfold gap at *
                  omega
            · rw [List.pairwise_cons]
              constructor
              · intro b hb
                rcases List.mem_cons.mp hb with hb | hb
                · subst hb
                  unfold gap
                  simp only
                  omega
                · have := hnagap b hb
                  unfold gap at *
                  omega
              · exact hpw2
          · intro p hp
            rcases List.mem_cons.mp hp with hp | hp
            · subst hp
              exact hok (pa, ps) (by simp)
            · rcases List.mem_cons.mp hp with hp | hp
              · subst hp
                unfold blockOK
                simp only
                omega
              · exact hok p (by simp at hp ⊢; tauto)
          · intro p hp
            rcases List.mem_cons.mp hp with hp | hp
            · subst hp
              simp
            · rcases List.mem_cons.mp hp with hp | hp
              · subst hp
                simp
                omega
              · rcases List.mem_cons.mp hp with hp | hp
                · subst hp
                  simp
                  omega
                · have := hnagap p hp
                  unfold gap at this
                  omega
          · intro x
            simp only [List.countP_cons, covers, decide_eq_true_eq]
            split_ifs <;> omega

theorem dealloc_preserves (W T : Nat) (fl : List (Nat × Nat)) (live : List AllocRec)
    (rec : AllocRec) (hinv : Inv W T fl live) (hmem : rec ∈ live) :
    Inv W T (FreeListAllocator.dealloc fl rec) (live.erase rec)
    ∧ FreeListAllocator.free (FreeListAllocator.dealloc fl rec)
      = FreeListAllocator.free fl + rec.msize := by
  have hrec := hinv.lives rec hmem
  unfold recOK at hrec
  simp only [META_SIZE] at hrec
  obtain ⟨hrW, hrend, hr8, hrm8, hrmeta, hruser⟩ := hrec
  have hmsp : 0 < rec.msize := by omega
  have hNB : align_up rec.start_addr 8 = rec.start_addr :=
    align_up8_of_mod _ (by have := hinv.bound; omega) hr8
  have hdisj : ∀ p ∈ fl, p.1 + p.2 ≤ rec.start_addr ∨ rec.start_addr + rec.msize ≤ p.1 :=
    fun p hp => hinv.block_rec_disjoint hp hmem
  -- the live side after erasing
  have hperm : live.Perm (rec :: live.erase rec) := List.perm_cons_erase hmem
  have hcount_live : ∀ x, live.countP (fun r => covers (r.start_addr, r.msize) x)
      = (live.erase rec).countP (fun r => covers (r.start_addr, r.msize) x)
        + (if covers (rec.start_addr, rec.msize) x = true then 1 else 0) := by
    intro x
    rw [hperm.countP_eq, List.countP_cons]
  have hlives' : ∀ r ∈ live.erase rec, recOK W T r :=
    fun r hr => hinv.lives r (List.mem_of_mem_erase hr)
  unfold FreeListAllocator.dealloc
  rw [hNB]
  cases hfl : fl with
  | nil =>
    refine ⟨⟨hinv.bound, by simp, ?_, hlives', ?_⟩, ?_⟩
    · intro p hp
      simp at hp
      subst hp
      unfold blockOK
      simp only
      omega
    · intro x hx1 hx2
      have hc := hinv.cover x hx1 hx2
      rw [hfl] at hc
      simp only [List.countP_nil, Nat.zero_add] at hc
      rw [hcount_live x] at hc
      simp only [List.countP_cons, List.countP_nil, covers, decide_eq_true_eq] at *
      omega
    · unfold FreeListAllocator.free
      simp [hfl]
  | cons q rest =>
    obtain ⟨ha, hs⟩ := q
    dsimp only
    have hhd := hinv.blocks (ha, hs) (by rw [hfl]; simp)
    unfold blockOK at hhd
    simp only at hhd
    have hdh := hdisj (ha, hs) (by rw [hfl]; simp)
    simp only at hdh
    have hch := hinv.chain
    rw [hfl, List.pairwise_cons] at hch
    obtain ⟨hhgap, hpw2⟩ := hch
    by_cases hlt : rec.start_addr < ha
    · rw [if_pos hlt]
      have hre : rec.start_addr + rec.msize ≤ ha := by
        rcases hdh with h | h <;> omega
      by_cases hm : rec.start_addr + rec.msize = ha
      · rw [if_pos hm]
        refine ⟨⟨hinv.bound, ?_, ?_, hlives', ?_⟩, ?_⟩
        · rw [List.pairwise_cons]
          refine ⟨?_, hpw2⟩
          intro b hb
          have := hhgap b hb
          unfold gap at *
          omega
        · intro p hp
          rcases List.mem_cons.mp hp with hp | hp
          · subst hp
            unfold blockOK
            simp only
            omega
          · exact hinv.blocks p (by rw [hfl]; simp [hp])
        · intro x hx1 hx2
          have hc := hinv.cover x hx1 hx2
          rw [hfl] at hc
          rw [hcount_live x] at hc
          simp only [List.countP_cons, covers, decide_eq_true_eq] at *
          split_ifs at * <;> omega
        · unfold FreeListAllocator.free
          simp
          omega
      · rw [if_neg hm]
        refine ⟨⟨hinv.bound, ?_, ?_, hlives', ?_⟩, ?_⟩
        · rw [List.pairwise_cons]
          constructor
          · intro b hb
            rcases List.mem_cons.mp hb with hb | hb
            · subst hb
              unfold gap
              simp only
              omega
            · have := hhgap b hb
              unfold gap at *
              omega
          · rw [List.pairwise_cons]
            exact ⟨hhgap, hpw2⟩
        · intro p hp
          rcases List.mem_cons.mp hp with hp | hp
          · subst hp
            unfold blockOK
            simp only
            omega
          · exact hinv.blocks p (by rw [hfl]; simp at hp ⊢; tauto)
        · intro x hx1 hx2
          have hc := hinv.cover x hx1 hx2
          rw [hfl] at hc
          rw [hcount_live x] at hc
          simp only [List.countP_cons, covers, decide_eq_true_eq] at *
          split_ifs at * <;> omega
        · unfold FreeListAllocator.free
          simp
          omega
    · rw [if_neg hlt]
      have hha : ha < rec.start_addr := by
        rcases hdh with h | h
        · omega
        · rcases Nat.lt_or_ge ha rec.start_addr with h2 | h2
          · exact h2
          · omega
      obtain ⟨ps2, tail, e1, e2, e3, e4, e5, e6⟩ :=
        deallocWalk_spec W T rec.start_addr rec.msize hr8 hrm8 hmsp hrW hrend rest ha hs
          (List.pairwise_cons.mpr ⟨hhgap, hpw2⟩)
          (fun p hp => hinv.blocks p (by rw [hfl]; exact hp))
          (fun p hp => hdisj p (by rw [hfl]; exact hp))
          hha
      rw [e1]
      refine ⟨⟨hinv.bound, e2, e3, hlives', ?_⟩, ?_⟩
      · intro x hx1 hx2
        have hc := hinv.cover x hx1 hx2
        rw [hfl] at hc
        rw [hcount_live x] at hc
        have he5 := e5 x
        split_ifs at hc he5 <;> omega
      · unfold FreeListAllocator.free
        simp only [List.map_cons, List.sum_cons] at e6 ⊢
        omega

theorem Inv_perm_live (W T : Nat) (fl : List (Nat × Nat)) (live live' : List AllocRec)
    (hinv : Inv W T fl live) (hperm : live.Perm live') : Inv W T fl live' := by
  refine ⟨hinv.bound, hinv.chain, hinv.blocks, ?_, ?_⟩
  · intro r hr
    exact hinv.lives r (hperm.mem_iff.mpr hr)
  · intro x hx1 hx2
    rw [← hperm.countP_eq]
    exact hinv.cover x hx1 hx2

theorem Inv_empty_single (W T : Nat) (fl : List (Nat × Nat)) (hT : 0 < T)
    (hinv : Inv W T fl []) : fl = [(W, T)] := by
  cases fl with
  | nil =>
    have := hinv.cover W le_rfl (by omega)
    simp at this
  | cons p tail =>
    obtain ⟨a0, s0⟩ := p
    have hok := hinv.blocks (a0, s0) (by simp)
    unfold blockOK at hok
    simp only at hok
    have htailgap := (List.pairwise_cons.mp hinv.chain).1
    -- the head starts at W
    have ha0 : a0 = W := by
      have hcW := hinv.cover W le_rfl (by omega)
      simp only [List.countP_nil, Nat.add_zero] at hcW
      have hpos : 0 < List.countP (fun p => covers p W) ((a0, s0) :: tail) := by omega
      obtain ⟨q, hq, hcov⟩ := List.countP_pos_iff.mp hpos
      simp only [covers, decide_eq_true_eq] at hcov
      have hqok := hinv.blocks q hq
      unfold blockOK at hqok
      rcases List.mem_cons.mp hq with hq | hq
      · subst hq
        simp only at hcov
        omega
      · have := htailgap q hq
        unfold gap at this
        omega
    -- the head spans the whole range
    have hs0 : a0 + s0 = W + T := by
      by_contra hne
      have hlt : a0 + s0 < W + T := by omega
      have hc := hinv.cover (a0 + s0) (by omega) hlt
      simp only [List.countP_nil, Nat.add_zero] at hc
      have hpos : 0 < List.countP (fun p => covers p (a0 + s0)) ((a0, s0) :: tail) := by omega
      obtain ⟨q, hq, hcov⟩ := List.countP_pos_iff.mp hpos
      simp only [covers, decide_eq_true_eq] at hcov
      rcases List.mem_cons.mp hq with hq | hq
      · subst hq
        simp only at hcov
        omega
      · have := htailgap q hq
        unfold gap at this
        omega
    -- nothing after the head
    cases tail with
    | nil =>
      have : s0 = T := by omega
      rw [ha0, this]
    | cons q tail2 =>
      have hqok := hinv.blocks q (by simp)
      unfold blockOK at hqok
      have := htailgap q (by simp)
      unfold gap at this
      omega

theorem forall2_and_mem {α β : Type} {R : α → β → Prop} :
    ∀ {l1 : List α} {l2 : List β}, List.Forall₂ R l1 l2 →
    List.Forall₂ (fun a b => R a b ∧ a ∈ l1 ∧ b ∈ l2) l1 l2 := by
  intro l1 l2 h
  induction h with
  | nil => exact List.Forall₂.nil
  | cons hr _ ih =>
    refine List.Forall₂.cons ⟨hr, by simp, by simp⟩ ?_
    refine ih.imp ?_
    intro a b hab
    exact ⟨hab.1, by simp [hab.2.1], by simp [hab.2.2]⟩

theorem runAllocs_preserves (W T : Nat) :
    ∀ (reqs : List (Nat × Nat)) (fl : List (Nat × Nat)) (live : List AllocRec)
      (fl1 : List (Nat × Nat)) (recs : List AllocRec),
    Inv W T fl live →
    (∀ r ∈ reqs, (∃ k, r.2 = 2 ^ k) ∧ r.2 ≤ 2 ^ 32 ∧ r.1 ≤ 2 ^ 32) →
    runAllocs fl reqs = some (fl1, recs) →
    Inv W T fl1 (recs ++ live)
    ∧ FreeListAllocator.free fl1 + ((recs.map AllocRec.msize).sum)
        = FreeListAllocator.free fl
    ∧ List.Forall₂ (fun (req : Nat × Nat) (rec : AllocRec) =>
        rec.usize = align_up req.1 8 ∧ rec.uaddr % max req.2 8 = 0) reqs recs := by
  intro reqs
  induction reqs with
  | nil =>
    intro fl live fl1 recs hinv hreqs h
    rw [runAllocs, Option.some.injEq, Prod.mk.injEq] at h
    obtain ⟨h1, h2⟩ := h
    subst h1
    subst h2
    exact ⟨hinv, by simp, List.Forall₂.nil⟩
  | cons q reqs ih =>
    obtain ⟨size0, align0⟩ := q
    intro fl live fl1 recs hinv hreqs h
    rw [runAllocs] at h
    cases ha : FreeListAllocator.alloc fl size0 align0 with
    | none =>
      rw [ha] at h
      exact absurd h (by simp)
    | some r =>
      obtain ⟨rec, fl2⟩ := r
      rw [ha] at h
      dsimp only at h
      cases hrun : runAllocs fl2 reqs with
      | none =>
        rw [hrun] at h
        exact absurd h (by simp)
      | some r2 =>
        obtain ⟨fl3, recs3⟩ := r2
        rw [hrun, Option.map_some', Option.some.injEq, Prod.mk.injEq] at h
        obtain ⟨h1, h2⟩ := h
        subst h1
        subst h2
        obtain ⟨hq1, hq2, hq3⟩ := hreqs (size0, align0) (by simp)
        obtain ⟨k, hk⟩ := hq1
        obtain ⟨hinv2, hfree2, halign, husize⟩ :=
          alloc_preserves W T fl live size0 align0 k rec fl2 hinv hk hq2 hq3 ha
        obtain ⟨hinv3, hfree3, hfa⟩ := ih fl2 (rec :: live) fl3 recs3 hinv2
          (fun r hr => hreqs r (by simp [hr])) hrun
        refine ⟨Inv_perm_live _ _ _ _ _ hinv3 List.perm_middle, ?_,
          List.Forall₂.cons ⟨husize, halign⟩ hfa⟩
        simp only [List.map_cons, List.sum_cons]
        omega

theorem runDeallocs_preserves (W T : Nat) :
    ∀ (order : List AllocRec) (fl : List (Nat × Nat)) (live : List AllocRec),
    Inv W T fl live → order.Perm live →
    Inv W T (runDeallocs fl order) []
    ∧ FreeListAllocator.free (runDeallocs fl order)
      = FreeListAllocator.free fl + ((order.map AllocRec.msize).sum) := by
  intro order
  induction order with
  | nil =>
    intro fl live hinv hperm
    have : live = [] := List.perm_nil.mp hperm.symm
    subst this
    exact ⟨hinv, by simp [runDeallocs]⟩
  | cons rec order ih =>
    intro fl live hinv hperm
    have hmem : rec ∈ live := hperm.subset (by simp)
    obtain ⟨hinv2, hfree2⟩ := dealloc_preserves W T fl live rec hinv hmem
    have hperm2 : order.Perm (live.erase rec) :=
      ((hperm.trans (List.perm_cons_erase hmem)).cons_inv)
    obtain ⟨hinv3, hfree3⟩ := ih (FreeListAllocator.dealloc fl rec) (live.erase rec) hinv2 hperm2
    refine ⟨hinv3, ?_⟩
    show FreeListAllocator.free (runDeallocs (FreeListAllocator.dealloc fl rec) order) = _
    rw [hfree3, hfree2]
    simp only [List.map_cons, List.sum_cons]
    omega

theorem init_Inv (hstart hend : Nat) (h8 : hstart % 8 = 0)
    (hsz8 : (hend - hstart) % 8 = 0) (hT : FREE_BLOCK_SIZE < hend - hstart)
    (hbound : hend ≤ 2 ^ 62) :
    Inv hstart ((hend - hstart) - FREE_BLOCK_SIZE)
      (FreeListAllocator.init hstart hend) []
    ∧ FreeListAllocator.free (FreeListAllocator.init hstart hend)
      = (hend - hstart) - FREE_BLOCK_SIZE := by
  simp only [FREE_BLOCK_SIZE] at *
  have hW : align_up hstart 8 = hstart := align_up8_of_mod _ (by omega) h8
  unfold FreeListAllocator.init
  rw [hW]
  refine ⟨⟨by omega, by simp, ?_, by simp, ?_⟩, ?_⟩
  · intro p hp
    simp at hp
    subst hp
    unfold blockOK
    simp only [FREE_BLOCK_SIZE]
    omega
  · intro x hx1 hx2
    simp only [FREE_BLOCK_SIZE] at hx2
    simp only [List.countP_cons, List.countP_nil, covers, decide_eq_true_eq, FREE_BLOCK_SIZE]
    split_ifs <;> omega
  · unfold FreeListAllocator.free
    simp [FREE_BLOCK_SIZE]

set_option maxRecDepth 10000 in
/-- C4: for every sequence of successful `alloc(size_i, align_i)` calls
(powers of two for the alignments, as `core::alloc::Layout` guarantees,
and sizes/alignments/heap bounded so no `usize` overflow occurs), followed
by `dealloc` of every returned allocation in any order, the final free-byte
count equals the free-byte count right after `init`, and the final
free-block count is one. -/
theorem C4_alloc_dealloc_conservation
    (hstart hend : Nat) (reqs : List (Nat × Nat)) (order : List AllocRec)
    (fl1 : List (Nat × Nat)) (recs : List AllocRec)
    (h8 : hstart % 8 = 0) (hsz8 : (hend - hstart) % 8 = 0)
    (hT : FREE_BLOCK_SIZE < hend - hstart) (hbound : hend ≤ 2 ^ 62)
    (hreqs : ∀ r ∈ reqs, (∃ k, r.2 = 2 ^ k) ∧ r.2 ≤ 2 ^ 32 ∧ r.1 ≤ 2 ^ 32)
    (hrun : runAllocs (FreeListAllocator.init hstart hend) reqs = some (fl1, recs))
    (horder : order.Perm recs) :
    FreeListAllocator.free (runDeallocs fl1 order)
      = FreeListAllocator.free (FreeListAllocator.init hstart hend)
    ∧ FreeListAllocator.free_blocks (runDeallocs fl1 order) = 1 := by
  obtain ⟨hinv0, hfree0⟩ := init_Inv hstart hend h8 hsz8 hT hbound
  obtain ⟨hinv1, hfree1, _⟩ :=
    runAllocs_preserves hstart _ reqs _ [] fl1 recs hinv0 hreqs hrun
  rw [List.append_nil] at hinv1
  obtain ⟨hinv2, hfree2⟩ := runDeallocs_preserves hstart _ order fl1 recs hinv1 horder
  have hfin := Inv_empty_single _ _ _
    (by simp only [FREE_BLOCK_SIZE] at hT ⊢; omega) hinv2
  have hsum_eq : ((order.map AllocRec.msize).sum) = ((recs.map AllocRec.msize).sum) :=
    (horder.map AllocRec.msize).sum_eq
  constructor
  · rw [hfree0] at hfree1
    rw [hfree2, hsum_eq, hfree0]
    omega
  · rw [FreeListAllocator.free_blocks, hfin]
    rfl

/-- C5: every successful `alloc(size, align)` in a run returns an address
aligned to `max(align, 8)`, the rounded size covers the request, the user
range lies inside the heap, and the user ranges of any two
simultaneously-live allocations are disjoint. -/
theorem C5_alloc_alignment_in_heap_disjoint
    (hstart hend : Nat) (reqs : List (Nat × Nat))
    (fl1 : List (Nat × Nat)) (recs : List AllocRec)
    (h8 : hstart % 8 = 0) (hsz8 : (hend - hstart) % 8 = 0)
    (hT : FREE_BLOCK_SIZE < hend - hstart) (hbound : hend ≤ 2 ^ 62)
    (hreqs : ∀ r ∈ reqs, (∃ k, r.2 = 2 ^ k) ∧ r.2 ≤ 2 ^ 32 ∧ r.1 ≤ 2 ^ 32)
    (hrun : runAllocs (FreeListAllocator.init hstart hend) reqs = some (fl1, recs)) :
    List.Forall₂ (fun (req : Nat × Nat) (rec : AllocRec) =>
        rec.uaddr % max req.2 8 = 0
        ∧ rec.usize = align_up req.1 8
        ∧ req.1 ≤ rec.usize
        ∧ rec.uaddr + rec.usize ≤ hend) reqs recs
    ∧ List.Pairwise (fun r r' : AllocRec =>
        ∀ x, r.uaddr ≤ x → x < r.uaddr + r.usize →
          ¬(r'.uaddr ≤ x ∧ x < r'.uaddr + r'.usize)) recs := by
  obtain ⟨hinv0, hfree0⟩ := init_Inv hstart hend h8 hsz8 hT hbound
  obtain ⟨hinv1, hfree1, hfa⟩ :=
    runAllocs_preserves hstart _ reqs _ [] fl1 recs hinv0 hreqs hrun
  rw [List.append_nil] at hinv1
  constructor
  · refine (forall2_and_mem hfa).imp ?_
    intro req rec h
    obtain ⟨⟨husz, halign⟩, hreqmem, hrecmem⟩ := h
    have hlive := hinv1.lives rec hrecmem
    unfold recOK at hlive
    simp only [FREE_BLOCK_SIZE] at hlive
    have hszb := (hreqs req hreqmem).2.2
    refine ⟨halign, husz, ?_, ?_⟩
    · rw [husz]
      rw [show (8 : Nat) = 2 ^ 3 from by norm_num]
      exact align_up_ge _ _ (by omega)
    · omega
  · rw [List.pairwise_iff_forall_sublist]
    intro r r' hsub
    intro x hx1 hx2 hx3
    obtain ⟨hx4, hx5⟩ := hx3
    have hrmem : r ∈ recs := hsub.subset (by simp)
    have hrmem' : r' ∈ recs := hsub.subset (by simp)
    have hok := hinv1.lives r hrmem
    have hok' := hinv1.lives r' hrmem'
    unfold recOK at hok hok'
    simp only [META_SIZE] at hok hok'
    have hcov : covers (r.start_addr, r.msize) x = true := by
      simp only [covers, decide_eq_true_eq]
      omega
    have hcov' : covers (r'.start_addr, r'.msize) x = true := by
      simp only [covers, decide_eq_true_eq]
      omega
    have hc2 : 2 ≤ recs.countP (fun q => covers (q.start_addr, q.msize) x) := by
      have := hsub.countP_le (fun q : AllocRec => covers (q.start_addr, q.msize) x)
      simp only [List.countP_cons, List.countP_nil, hcov, hcov', if_true] at this
      omega
    have hcv := hinv1.cover x (by omega) (by simp only [FREE_BLOCK_SIZE] at hT; omega)
    omega

theorem C4_alloc_dealloc_conservation_witness :
    ∃ r : List (Nat × Nat) × List AllocRec,
      runAllocs (FreeListAllocator.init 0 1024) [(800, 8), (64, 128)] = some r
      ∧ FreeListAllocator.free (runDeallocs r.1 r.2.reverse)
          = FreeListAllocator.free (FreeListAllocator.init 0 1024)
      ∧ FreeListAllocator.free_blocks (runDeallocs r.1 r.2.reverse) = 1 := by
  obtain ⟨r, hr⟩ := Option.isSome_iff_exists.mp
    (by decide : (runAllocs (FreeListAllocator.init 0 1024) [(800, 8), (64, 128)]).isSome = true)
  have hp := C4_alloc_dealloc_conservation 0 1024 [(800, 8), (64, 128)] r.2.reverse r.1 r.2
    (by decide) (by decide) (by decide) (by norm_num)
    (by
      intro q hq
      simp only [List.mem_cons, List.not_mem_nil, or_false] at hq
      rcases hq with hq | hq <;> subst hq
      · exact ⟨⟨3, by norm_num⟩, by norm_num, by norm_num⟩
      · exact ⟨⟨7, by norm_num⟩, by norm_num, by norm_num⟩)
    (by rw [hr]) (List.reverse_perm _)
  exact ⟨r, hr, hp.1, hp.2⟩

theorem C5_alloc_alignment_in_heap_disjoint_witness :
    ∃ r : List (Nat × Nat) × List AllocRec,
      runAllocs (FreeListAllocator.init 0 1024) [(800, 8), (64, 128)] = some r
      ∧ List.Forall₂ (fun (req : Nat × Nat) (rec : AllocRec) =>
          rec.uaddr % max req.2 8 = 0
          ∧ rec.usize = align_up req.1 8
          ∧ req.1 ≤ rec.usize
          ∧ rec.uaddr + rec.usize ≤ 1024) [(800, 8), (64, 128)] r.2
      ∧ List.Pairwise (fun r1 r2 : AllocRec =>
          ∀ x, r1.uaddr ≤ x → x < r1.uaddr + r1.usize →
            ¬(r2.uaddr ≤ x ∧ x < r2.uaddr + r2.usize)) r.2 := by
  obtain ⟨r, hr⟩ := Option.isSome_iff_exists.mp
    (by decide : (runAllocs (FreeListAllocator.init 0 1024) [(800, 8), (64, 128)]).isSome = true)
  have hp := C5_alloc_alignment_in_heap_disjoint 0 1024 [(800, 8), (64, 128)] r.1 r.2
    (by decide) (by decide) (by decide) (by norm_num)
    (by
      intro q hq
      simp only [List.mem_cons, List.not_mem_nil, or_false] at hq
      rcases hq with hq | hq <;> subst hq
      · exact ⟨⟨3, by norm_num⟩, by norm_num, by norm_num⟩
      · exact ⟨⟨7, by norm_num⟩, by norm_num, by norm_num⟩)
    (by rw [hr])
  exact ⟨r, hr, hp.1, hp.2⟩

end Lemon
